import Mathlib

/-!
Verification of the Archon incremental sync pipeline.

This file gives a shallow embedding, in Lean 4, of the parts of the
Archon repository that the verified claims are about:

* the language-aware Chunker (python/src/server/services/sync/chunker.py),
* the chunk-and-embed path and the chunk-level diff of the incremental
  sync engine (incremental_sync_service.py),
* the error classifier and the per-project circuit breaker
  (error_handler.py),
* the batch embedder with its rate limiter and retry loop
  (batch_embedder.py),
* the debouncer (debouncer.py),
* the local-path validation (projects/project_service_sync.py).

Modelling conventions, used throughout:

* File text is represented by its list of lines (the source computes
  `content.split('\n')` once and works line-wise; joining the lines with
  a newline is a bijection onto texts, since no line contains a newline).
  A chunk therefore carries its lines (`content : List String`) where the
  source stores the newline-join of the same lines.
* SHA-256 digests (hash_utils.py) are abstracted by the content itself:
  the digest of the source is a fixed collision-resistant function of the
  content, so equality of digests is modelled as equality of contents.
  Only equality of digests is ever consumed by the verified code paths.
* Wall-clock times are integers (the claims are order-theoretic; no
  density of the time line is used by the code).
* Python exceptions are pairs of a type name and a message string.
-/

/-! ## String helpers: Python str.lower and substring containment -/

/-- ASCII lower-casing of one character, as Python str.lower acts on the
ASCII range (all keyword tables of the source are ASCII). -/
def lowerChar (c : Char) : Char :=
  if 'A' ≤ c ∧ c ≤ 'Z' then Char.ofNat (c.toNat + 32) else c

/-- Lower-case a character list. -/
def lowerL (s : List Char) : List Char := s.map lowerChar

/-- Contiguous-sublist test, Python `pat in s` on strings. -/
def containsSeq (pat : List Char) : List Char → Bool
  | [] => pat.isEmpty
  | a :: rest => pat.isPrefixOf (a :: rest) || containsSeq pat rest

/-- Python `indicator in str(error).lower()` for a lower-case ASCII
`indicator`. -/
def containsLower (msg indicator : String) : Bool :=
  containsSeq indicator.toList (lowerL msg.toList)

/-! ## Error model and ErrorClassifier (error_handler.py) -/

/-- A raised Python exception, as far as the sync code inspects it:
`type(error).__name__` and `str(error)`. -/
structure Err where
  typeName : String
  message : String
deriving DecidableEq, Repr

/-- One row of `ErrorClassifier.ERROR_CATEGORIES`. -/
structure ErrorCategory where
  name : String
  keywords : List String
  types : List String
  retryable : Bool
deriving Repr

/-- The fixed category table of `ErrorClassifier`, in its insertion
order (Python dicts iterate in insertion order). -/
def ERROR_CATEGORIES : List ErrorCategory :=
  [ ⟨"network", ["connection", "timeout", "network", "unreachable", "refused"],
      ["ConnectionError", "TimeoutError", "HTTPError", "RequestException"], true⟩,
    ⟨"permission", ["permission", "access denied", "forbidden", "unauthorized"],
      ["PermissionError", "OSError"], false⟩,
    ⟨"parsing", ["decode", "encoding", "utf-8", "unicode", "syntax", "invalid"],
      ["UnicodeDecodeError", "UnicodeError", "SyntaxError"], false⟩,
    ⟨"embedding", ["embed", "cohere", "openai", "rate limit", "quota"],
      ["EmbeddingError", "APIError"], true⟩,
    ⟨"database", ["database", "supabase", "postgres", "sql", "query", "constraint"],
      ["DatabaseError", "IntegrityError", "OperationalError"], true⟩,
    ⟨"circuit_breaker", ["circuit breaker"],
      ["CircuitBreakerOpenError"], false⟩ ]

/-- `ErrorClassifier.classify`: first category whose type list contains
the error type name or one of whose keywords occurs in the lower-cased
message; otherwise "unknown". -/
def classify (e : Err) : String :=
  match ERROR_CATEGORIES.find? (fun cat =>
    cat.types.contains e.typeName ||
    cat.keywords.any (fun kw => containsLower e.message kw)) with
  | some cat => cat.name
  | none => "unknown"

/-- `ErrorClassifier.is_retryable`: look the category up in the table;
unknown categories are not retryable. -/
def is_retryable (category : String) : Bool :=
  match ERROR_CATEGORIES.find? (fun cat => cat.name == category) with
  | some cat => cat.retryable
  | none => false

/-! ## Chunker (chunker.py) -/

/-- `CodeChunk` of chunker.py; `content` holds the lines of the chunk
(the source stores their newline-join). -/
structure CodeChunk where
  content : List String
  start_line : Nat
  end_line : Nat
  language : String
  section_type : Option String := none
  section_name : Option String := none
deriving DecidableEq, Repr

/-- Default `max_lines` of `Chunker.chunk_file`. -/
def DEFAULT_CHUNK_SIZE : Nat := 100

/-- Default `overlap_lines` of `Chunker.chunk_file`. -/
def DEFAULT_OVERLAP : Nat := 10

/-- Python `\w` on the ASCII range. -/
def isWordChar (c : Char) : Bool := c.isAlphanum || c = '_'

/-- Python `\s` on ASCII: space, tab, newline, carriage return, vertical
tab, form feed. -/
def isSpaceChar (c : Char) : Bool :=
  c = ' ' || c = '\t' || c = '\n' || c = '\x0d' || c = '\x0b' || c = '\x0c'

/-- Consume a literal keyword. -/
def expectStr (kw : String) (cs : List Char) : Option (List Char) :=
  if kw.toList.isPrefixOf cs then some (cs.drop kw.length) else none

/-- Consume at least one whitespace character (regex `\s+`). -/
def ws1 (cs : List Char) : Option (List Char) :=
  let rest := cs.dropWhile isSpaceChar
  if rest.length = cs.length then none else some rest

/-- Consume any whitespace (regex `\s*`). -/
def ws0 (cs : List Char) : List Char := cs.dropWhile isSpaceChar

/-- Consume a keyword followed by at least one whitespace. -/
def kwWs (kw : String) (cs : List Char) : Option (List Char) :=
  (expectStr kw cs).bind ws1

/-- Capture a nonempty word (regex `(\w+)`). -/
def word1 (cs : List Char) : Option (String × List Char) :=
  let w := cs.takeWhile isWordChar
  if w.isEmpty then none else some (String.mk w, cs.drop w.length)

/-- Optionally consume `kw` plus whitespace (regex `(?:kw\s+)?`); when
the keyword with its whitespace is present nothing later in the
patterns of the source can match the unconsumed form, so committing to
the consumption is equivalent to the backtracking regex. -/
def optKwWs (kw : String) (cs : List Char) : List Char :=
  match kwWs kw cs with
  | some r => r
  | none => cs

/-- `^class\s+(\w+)` and `^def\s+(\w+)` of `Chunker._chunk_python`:
returns the section type and captured name. -/
def pyMatch (line : String) : Option (String × String) :=
  let cs := line.toList
  match kwWs "class" cs with
  | some r => (word1 r).map (fun w => ("class", w.1))
  | none =>
    match kwWs "def" cs with
    | some r => (word1 r).map (fun w => ("function", w.1))
    | none => none

/-- The four TypeScript patterns of `Chunker._chunk_typescript`, tried
in source order (interface, class, function, arrow function), each of
shape `^\s*(?:export\s+)?...`. -/
def tsMatch (line : String) : Option (String × String) :=
  let cs := optKwWs "export" (ws0 line.toList)
  match kwWs "interface" cs with
  | some r => (word1 r).map (fun w => ("interface", w.1))
  | none =>
  match kwWs "class" cs with
  | some r => (word1 r).map (fun w => ("class", w.1))
  | none =>
  match kwWs "function" (optKwWs "async" cs) with
  | some r => (word1 r).map (fun w => ("function", w.1))
  | none =>
  match kwWs "const" cs with
  | none => none
  | some r =>
    match word1 r with
    | none => none
    | some (nm, r2) =>
      match ws0 r2 with
      | '=' :: r4 =>
        let r5 := ws0 r4
        let r6 := if "async".toList.isPrefixOf r5 then ws0 (r5.drop 5) else r5
        match r6 with
        | '(' :: _ => some ("function", nm)
        | _ => none
      | _ => none

/-- The loop shared by `_chunk_python` and `_chunk_typescript`: `cur` is
`current_chunk_lines`, `s` is `current_start_line`, `idx` is the 1-based
index of the next line, `st`/`sn` are the current section type and name.
On a declaration match the current chunk is closed; when the grown chunk
reaches `max_lines` it is emitted and the last `ov` lines are carried
into the next chunk whose start line is `idx - ov + 1`. -/
def structGo (matcher : String → Option (String × String)) (lang : String)
    (maxL ov : Nat) :
    List String → List String → Nat → Nat → Option String → Option String →
    List CodeChunk
  | [], cur, s, idx, st, sn =>
    if cur.isEmpty then []
    else [⟨cur, s, idx - 1, lang, st, sn⟩]
  | l :: rest, cur, s, idx, st, sn =>
    let step :
        List CodeChunk × List String × Nat × Option String × Option String :=
      match matcher l with
      | some (t, n) =>
        ((if cur.isEmpty then [] else [⟨cur, s, idx - 1, lang, st, sn⟩]),
          [l], idx, some t, some n)
      | none => ([], cur ++ [l], s, st, sn)
    let emitted := step.1
    let cur₁ := step.2.1
    let s₁ := step.2.2.1
    let st₁ := step.2.2.2.1
    let sn₁ := step.2.2.2.2
    if maxL ≤ cur₁.length then
      emitted ++ ⟨cur₁, s₁, idx, lang, st₁, sn₁⟩ ::
        structGo matcher lang maxL ov rest
          (cur₁.drop (cur₁.length - ov)) (idx + 1 - ov) (idx + 1) st₁ sn₁
    else
      emitted ++ structGo matcher lang maxL ov rest cur₁ s₁ (idx + 1) st₁ sn₁

/-- `Chunker._chunk_python` over the line list of the content. -/
def chunk_python (lines : List String) (maxL ov : Nat) : List CodeChunk :=
  structGo pyMatch "python" maxL ov lines [] 1 1 none none

/-- `Chunker._chunk_typescript` over the line list of the content. -/
def chunk_typescript (lines : List String) (maxL ov : Nat) : List CodeChunk :=
  structGo tsMatch "typescript" maxL ov lines [] 1 1 none none

/-- `^(#{1,6})\s+(.+)$` of `Chunker._chunk_markdown`: the heading text.
When the tail after the hashes is whitespace only, the greedy `\s+`
backtracks and leaves a single final whitespace character as the
capture. -/
def mdMatch (line : String) : Option String :=
  let cs := line.toList
  let hs := cs.takeWhile (fun c => c = '#')
  if 1 ≤ hs.length ∧ hs.length ≤ 6 then
    let rest := cs.drop hs.length
    let sp := rest.takeWhile isSpaceChar
    let body := rest.drop sp.length
    if sp.isEmpty then none
    else if body.isEmpty then
      if 2 ≤ sp.length then some (String.mk (sp.drop (sp.length - 1))) else none
    else some (String.mk body)
  else none

/-- The loop of `Chunker._chunk_markdown`: new chunk at each heading,
size splits without overlap, `section_type` fixed to "section". -/
def mdGo (maxL : Nat) :
    List String → List String → Nat → Nat → Option String → List CodeChunk
  | [], cur, s, idx, sn =>
    if cur.isEmpty then []
    else [⟨cur, s, idx - 1, "markdown", some "section", sn⟩]
  | l :: rest, cur, s, idx, sn =>
    let step : List CodeChunk × List String × Nat × Option String :=
      match mdMatch l with
      | some h =>
        ((if cur.isEmpty then []
          else [⟨cur, s, idx - 1, "markdown", some "section", sn⟩]),
          [l], idx, some h)
      | none => ([], cur ++ [l], s, sn)
    let emitted := step.1
    let cur₁ := step.2.1
    let s₁ := step.2.2.1
    let sn₁ := step.2.2.2
    if maxL ≤ cur₁.length then
      emitted ++ ⟨cur₁, s₁, idx, "markdown", some "section", sn₁⟩ ::
        mdGo maxL rest [] (idx + 1) (idx + 1) sn₁
    else
      emitted ++ mdGo maxL rest cur₁ s₁ (idx + 1) sn₁

/-- `Chunker._chunk_markdown` over the line list of the content. -/
def chunk_markdown (lines : List String) (maxL : Nat) : List CodeChunk :=
  mdGo maxL lines [] 1 1 none

/-- Python slice index normalisation for step-1 slices `l[a:b]`. -/
def pyIndex (len : Nat) (i : Int) : Nat :=
  if i < 0 then ((len : Int) + i).toNat else min i.toNat len

/-- Python `l[a:b]`. -/
def pySlice (l : List String) (a b : Int) : List String :=
  (l.take (pyIndex l.length b)).drop (pyIndex l.length a)

/-- The `while idx < len(lines)` loop of `Chunker._chunk_generic`, with
explicit fuel: one unit per iteration, `none` when the fuel is exhausted
with the loop still running. The index is an integer because the source
advances it by `max_lines - overlap_lines`, which can be non-positive. -/
def genericGo (lines : List String) (maxL ov : Nat) :
    Nat → Int → Option (List CodeChunk)
  | 0, idx => if idx < (lines.length : Int) then none else some []
  | fuel + 1, idx =>
    if idx < (lines.length : Int) then
      let chunk_lines := pySlice lines idx (idx + (maxL : Int))
      let c : CodeChunk :=
        ⟨chunk_lines, (idx + 1).toNat,
          min (idx + chunk_lines.length).toNat lines.length, "generic",
          none, none⟩
      (genericGo lines maxL ov fuel (idx + (maxL : Int) - (ov : Int))).map
        (fun cs => c :: cs)
    else
      some []

/-- `Chunker._chunk_generic`: the loop advances by at least one line per
iteration whenever `ov < maxL`, hence `lines.length` fuel suffices and
the wrapper then equals the source loop; `genericGo` itself carries the
termination behaviour. -/
def chunk_generic (lines : List String) (maxL ov : Nat) : List CodeChunk :=
  (genericGo lines maxL ov lines.length 0).getD []

/-- `Chunker.chunk_file`: dispatch on the language tag. -/
def chunk_file (lines : List String) (language : String)
    (maxL : Nat := DEFAULT_CHUNK_SIZE) (ov : Nat := DEFAULT_OVERLAP) :
    List CodeChunk :=
  if language = "python" then chunk_python lines maxL ov
  else if language = "typescript" ∨ language = "javascript" ∨
      language = "tsx" ∨ language = "jsx" then
    chunk_typescript lines maxL ov
  else if language = "markdown" then chunk_markdown lines maxL
  else chunk_generic lines maxL ov

/-- The extension table of `detect_language`, in insertion order. -/
def extension_map : List (String × String) :=
  [ (".py", "python"), (".ts", "typescript"), (".tsx", "typescript"),
    (".js", "javascript"), (".jsx", "javascript"), (".md", "markdown"),
    (".mdx", "markdown"), (".rs", "rust"), (".go", "go"),
    (".java", "java"), (".cpp", "cpp"), (".c", "c"), (".cs", "csharp"),
    (".rb", "ruby"), (".php", "php"), (".swift", "swift"),
    (".kt", "kotlin") ]

/-- `detect_language`: first extension the path ends with; "generic"
otherwise. -/
def detect_language (file_path : String) : String :=
  match extension_map.find? (fun p => p.1.toList.isSuffixOf file_path.toList) with
  | some p => p.2
  | none => "generic"

example : pyMatch "def f(x):" = some ("function", "f") := by decide
example : pyMatch "  def g(x):" = none := by decide
example : tsMatch "export const handler = async (req) =>" =
    some ("function", "handler") := by decide
example : tsMatch "export interface Foo \x7b" = some ("interface", "Foo") := by decide
example : mdMatch "## Title here" = some "Title here" := by decide
example : detect_language "a/b.py" = "python" := by decide
example : detect_language "a/b.txt" = "generic" := by decide

/-! ## Hash model (hash_utils.py) -/

/-- Digest values. SHA-256 hex digests are abstracted by the hashed
content itself (the spec itself characterises the digest as a stable,
collision-resistant function of the content): the verified code paths
consume digests only through equality tests, and under the abstraction
digest equality coincides with content equality. -/
abbrev Digest := List String

/-- `hash_utils.compute_content_hash` under the digest abstraction. -/
def compute_content_hash (content : List String) : Digest := content

/-- `hash_utils.compute_chunk_hash` (the same function as
`compute_content_hash` in the source). -/
def compute_chunk_hash (chunk_content : List String) : Digest :=
  compute_content_hash chunk_content

/-! ## Chunk objects of the sync engine (incremental_sync_service.py) -/

/-- The metadata dict attached to a chunk by `_chunk_and_embed_file`. -/
structure ChunkMetadata where
  file_path : String
  relative_path : String
  file_hash : String
  chunk_hash : Digest
  language : String
  chunk_index : Nat
  start_line : Nat
  end_line : Nat
  section_type : Option String
  section_name : Option String
deriving DecidableEq, Repr

/-- A chunk dict ready for insertion. The embedding vector is abstracted
by an identifier; the source skips falsy embeddings (None or empty),
modelled by `Option`. -/
structure ChunkObject where
  source_id : String
  content : List String
  embedding : Nat
  metadata : ChunkMetadata
deriving DecidableEq, Repr

/-- The chunk-object construction of `_chunk_and_embed_file` (the loop
over `zip(code_chunks, embeddings)`): skip chunks whose embedding is
falsy, attach full metadata. `chunk_index` counts zip positions,
including skipped ones, as `enumerate` does. -/
def build_chunk_objects (source_id file_path relative_path file_hash : String)
    (language : String) (code_chunks : List CodeChunk)
    (embeddings : List (Option Nat)) : List ChunkObject :=
  (code_chunks.zip embeddings).enum.filterMap (fun p =>
    match p.2.2 with
    | none => none
    | some emb =>
      some { source_id := source_id, content := p.2.1.content, embedding := emb,
             metadata := {
               file_path := file_path, relative_path := relative_path,
               file_hash := file_hash,
               chunk_hash := compute_chunk_hash p.2.1.content,
               language := language, chunk_index := p.1,
               start_line := p.2.1.start_line, end_line := p.2.1.end_line,
               section_type := p.2.1.section_type,
               section_name := p.2.1.section_name } })

/-- The successful-batch path of `_chunk_and_embed_file`: detect the
language from the path, chunk with the default parameters, and build
the chunk objects from the batch embedding results. Reading the file is
abstracted: the function receives the decoded line list and the file
digest (the binary-skip and read-error branches return [] earlier). -/
def chunk_and_embed_file (source_id file_path relative_path file_hash : String)
    (lines : List String) (embeddings : List (Option Nat)) : List ChunkObject :=
  build_chunk_objects source_id file_path relative_path file_hash
    (detect_language file_path) (chunk_file lines (detect_language file_path))
    embeddings

/-- `_insert_chunks`: every chunk is inserted; the batches of 50
concatenate in order, so the store gains exactly the listed chunks. -/
def insert_chunks (store chunks : List ChunkObject) : List ChunkObject :=
  store ++ chunks

/-! ## Insertion-ordered dict and the chunk diff -/

/-- Insert into an insertion-ordered map as a Python dict: an existing
key keeps its position and takes the new value; a new key is appended. -/
def dictInsert {α β : Type} [DecidableEq α] (m : List (α × β)) (k : α) (v : β) :
    List (α × β) :=
  if m.any (fun p => p.1 = k) then
    m.map (fun p => if p.1 = k then (k, v) else p)
  else m ++ [(k, v)]

/-- Build a dict from a pair list (a Python dict comprehension). -/
def dictOfList {α β : Type} [DecidableEq α] (l : List (α × β)) : List (α × β) :=
  l.foldl (fun m p => dictInsert m p.1 p.2) []

/-- Membership of a key in a dict. -/
def dictHasKey {α β : Type} [DecidableEq α] (m : List (α × β)) (k : α) : Bool :=
  m.any (fun p => p.1 = k)

/-- A stored chunk row, to the extent the sync engine reads it: its id
and the `chunk_hash` and `file_hash` of its metadata (either may be
absent, then `.get` yields None). -/
structure StoredChunk where
  id : String
  chunk_hash : Option Digest
  file_hash : Option String
deriving DecidableEq, Repr

/-- `_compute_chunk_diff`: hash-keyed dicts of the old and new chunks
(rows without a truthy `chunk_hash` are dropped), then one deletion id
per old hash absent from the new hashes and one added chunk per new
hash absent from the old hashes. Python iterates the set differences in
an unspecified order; the model iterates them in dict order, and all
theorems about the diff are stated up to permutation or membership. -/
def compute_chunk_diff (old_chunks : List StoredChunk)
    (new_chunks : List ChunkObject) : List String × List ChunkObject :=
  let old_by_hash :=
    dictOfList (old_chunks.filterMap
      (fun c => c.chunk_hash.map (fun h => (h, c))))
  let new_by_hash :=
    dictOfList (new_chunks.map (fun c => (c.metadata.chunk_hash, c)))
  let chunks_to_delete_ids :=
    (old_by_hash.filter (fun p => !dictHasKey new_by_hash p.1)).map
      (fun p => p.2.id)
  let chunks_to_add :=
    (new_by_hash.filter (fun p => !dictHasKey old_by_hash p.1)).map
      (fun p => p.2)
  (chunks_to_delete_ids, chunks_to_add)

/-- `SyncStats` (duration_seconds, a float, is not modelled; no claim
mentions it). -/
structure SyncStats where
  files_processed : Nat := 0
  chunks_added : Nat := 0
  chunks_modified : Nat := 0
  chunks_deleted : Nat := 0
  errors : List String := []
deriving DecidableEq, Repr

/-- The per-file aggregation of the modified branch of
`_sync_project_changes_internal`: after applying the diff,
`chunks_modified` grows by the number of added chunks, `chunks_deleted`
by the number of removals, `files_processed` by one. -/
def apply_modified_result (stats : SyncStats) (to_delete : List String)
    (to_add : List ChunkObject) : SyncStats :=
  { stats with
      chunks_modified := stats.chunks_modified + to_add.length,
      chunks_deleted := stats.chunks_deleted + to_delete.length,
      files_processed := stats.files_processed + 1 }

/-! ## Change categorization (_categorize_changes) -/

/-- The per-file facts `_categorize_changes` consults: `os.path.exists`,
the stored chunks of the (source, file) pair, and the digest
`compute_file_hash` of the current disk content. -/
structure FileStatus where
  existsOnDisk : Bool
  chunks : List StoredChunk
  current_hash : String
deriving Repr

/-- One iteration of the loop of `_categorize_changes`. -/
def categorize_step (env : String → FileStatus)
    (acc : List String × List String × List String) (f : String) :
    List String × List String × List String :=
  let st := env f
  if ¬ st.existsOnDisk then (acc.1, acc.2.1, acc.2.2 ++ [f])
  else if st.chunks.isEmpty then (acc.1 ++ [f], acc.2.1, acc.2.2)
  else if some st.current_hash ≠ (st.chunks.head?.bind (fun c => c.file_hash))
    then (acc.1, acc.2.1 ++ [f], acc.2.2)
  else acc

/-- `_categorize_changes`: a missing path is deleted; a path without
stored chunks is added; a path whose current digest differs from the
`file_hash` of the first stored chunk is modified; all other files are
dropped. Returns (added, modified, deleted). -/
def categorize_changes (files : List String) (env : String → FileStatus) :
    List String × List String × List String :=
  files.foldl (categorize_step env) ([], [], [])

/-! ## CircuitBreaker (error_handler.py) -/

inductive CircuitState
  | CLOSED
  | OPEN
  | HALF_OPEN
deriving DecidableEq, Repr

/-- The breaker's configuration and mutable fields. -/
structure CircuitBreaker where
  failure_threshold : Nat := 5
  timeout : Int := 60
  half_open_max_calls : Nat := 1
  state : CircuitState := .CLOSED
  failure_count : Nat := 0
  last_failure_time : Option Int := none
  half_open_calls : Nat := 0
deriving DecidableEq, Repr

/-- The outcome of the wrapped function. -/
inductive CallOutcome
  | success
  | failure
deriving DecidableEq, Repr

/-- What `CircuitBreaker.call` does with one invocation. -/
inductive CallResult
  | rejected (e : Err)
  | completed (o : CallOutcome)
deriving DecidableEq, Repr

/-- The OPEN rejection error. The dynamic retry-after suffix of the
source message (digits and the words "Retry after"/"s") is elided; it
contains no keyword of any classifier category, so the classification
is unaffected. -/
def circuitOpenError : Err :=
  ⟨"CircuitBreakerOpenError", "Circuit breaker is OPEN. Too many failures."⟩

/-- The HALF_OPEN concurrency rejection error. -/
def circuitHalfOpenError : Err :=
  ⟨"CircuitBreakerOpenError",
    "Circuit breaker is HALF_OPEN. Test call already in progress."⟩

/-- `CircuitBreaker._on_success`. -/
def cb_on_success (cb : CircuitBreaker) : CircuitBreaker :=
  let cb' := if cb.state = .HALF_OPEN then { cb with state := .CLOSED } else cb
  { cb' with failure_count := 0, last_failure_time := none }

/-- `CircuitBreaker._on_failure` at clock reading `now`. -/
def cb_on_failure (cb : CircuitBreaker) (now : Int) : CircuitBreaker :=
  let cb' := { cb with failure_count := cb.failure_count + 1,
                       last_failure_time := some now }
  if cb.state = .HALF_OPEN then { cb' with state := .OPEN }
  else if cb'.failure_threshold ≤ cb'.failure_count then
    { cb' with state := .OPEN }
  else cb'

/-- `CircuitBreaker.call`: the wrapped function is abstracted by its
outcome, the clock by one instant `now` per call. While OPEN, the call
is admitted through HALF_OPEN once strictly more than `timeout` seconds
have passed since the last failure, and rejected otherwise; HALF_OPEN
admits at most `half_open_max_calls` concurrent probes. -/
def cb_call (cb : CircuitBreaker) (now : Int) (o : CallOutcome) :
    CallResult × CircuitBreaker :=
  let transition : Option CircuitBreaker :=
    if cb.state = .OPEN then
      match cb.last_failure_time with
      | some lf =>
        if now - lf > cb.timeout then
          some { cb with state := .HALF_OPEN, half_open_calls := 0 }
        else none
      | none => none
    else some cb
  match transition with
  | none => (.rejected circuitOpenError, cb)
  | some cb₁ =>
    if cb₁.state = .HALF_OPEN then
      if cb₁.half_open_max_calls ≤ cb₁.half_open_calls then
        (.rejected circuitHalfOpenError, cb₁)
      else
        let cb₂ := { cb₁ with half_open_calls := cb₁.half_open_calls + 1 }
        match o with
        | .success => (.completed .success, cb_on_success cb₂)
        | .failure => (.completed .failure, cb_on_failure cb₂ now)
    else
      match o with
      | .success => (.completed .success, cb_on_success cb₁)
      | .failure => (.completed .failure, cb_on_failure cb₁ now)

/-! ## RateLimiter and BatchEmbedder retry (batch_embedder.py) -/

/-- `RateLimiter.acquire` under the lock: expire timestamps strictly
older than `now - time_window`; when `rate_limit` many remain, sleep
until the oldest plus the window (when that lies in the future), drop
that oldest and record the post-sleep clock; otherwise record `now`.
Returns the recorded admission time and the new deque. -/
def rl_acquire (rate_limit : Nat) (time_window : Int) (deque : List Int)
    (now : Int) : Int × List Int :=
  let d := deque.dropWhile (fun t => t < now - time_window)
  if rate_limit ≤ d.length then
    let oldest := d.headD 0
    let adm := max now (oldest + time_window)
    (adm, d.tail ++ [adm])
  else
    (now, d ++ [now])

/-- A serialized sequence of acquisitions: the k-th caller reads the
clock `delays k` after the previous admission was recorded (the asyncio
lock orders the calls and the clock is monotone). Returns the admission
times in order. -/
def rl_run (rate_limit : Nat) (time_window : Int) :
    List Nat → List Int → Int → List Int
  | [], _, _ => []
  | δ :: ds, deque, lastT =>
    let now := lastT + (δ : Int)
    let r := rl_acquire rate_limit time_window deque now
    r.1 :: rl_run rate_limit time_window ds r.2 r.1

/-- `BatchEmbedder._is_rate_limit_error`: the fixed indicator list
matched against the lower-cased message. -/
def rate_limit_indicators : List String :=
  ["rate limit", "too many requests", "quota exceeded", "429", "throttle",
   "slow down"]

/-- `BatchEmbedder._is_rate_limit_error`. -/
def is_rate_limit_error (e : Err) : Bool :=
  rate_limit_indicators.any (fun ind => containsLower e.message ind)

/-- The retry loop of `_embed_batch_with_retry`: attempt `k` of the
script either returns the embeddings or raises; a failure is retried
after a sleep of `2 ^ (k+1)` seconds exactly when
`_is_rate_limit_error` matches and the retry budget is not exhausted.
Returns the outcome and the sleeps performed. The fuel argument makes
the recursion structural; the wrapper supplies `max_retries + 1`, which
is exactly the attempt budget, so the zero-fuel branch is unreachable. -/
def embed_retry_go (attempt : Nat → Except Err (List Nat)) (max_retries : Nat) :
    Nat → Nat → Except Err (List Nat) × List Nat
  | _, 0 => (.error ⟨"", ""⟩, [])
  | k, fuel + 1 =>
    match attempt k with
    | .ok v => (.ok v, [])
    | .error e =>
      if max_retries < k + 1 then (.error e, [])
      else if is_rate_limit_error e then
        let r := embed_retry_go attempt max_retries (k + 1) fuel
        (r.1, 2 ^ (k + 1) :: r.2)
      else (.error e, [])

/-- `BatchEmbedder._embed_batch_with_retry` over an attempt script. -/
def embed_batch_with_retry (attempt : Nat → Except Err (List Nat))
    (max_retries : Nat) : Except Err (List Nat) × List Nat :=
  embed_retry_go attempt max_retries 0 (max_retries + 1)

/-! ## Debouncer (debouncer.py) -/

/-- `FileEvent` of debouncer.py; the float timestamp is modelled as an
integer (only its ordering is consumed). -/
structure FileEvent where
  type : String
  project_id : String
  file_path : String
  timestamp : Int
deriving DecidableEq, Repr

/-- `DebouncerService.add_event` on one project's pending map
(file_path → latest event): the entry for the file is overwritten. -/
def add_event (pending : List (String × FileEvent)) (e : FileEvent) :
    List (String × FileEvent) :=
  dictInsert pending e.file_path e

/-- `DebouncerService._deduplicate_events`: keep the first occurrence
position per file, replacing the kept event when a later one has a
strictly greater timestamp. -/
def deduplicate_events (events : List FileEvent) : List FileEvent :=
  (events.foldl (fun m e =>
    if m.any (fun p => p.1 = e.file_path) then
      m.map (fun p =>
        if p.1 = e.file_path ∧ p.2.timestamp < e.timestamp then (p.1, e) else p)
    else m ++ [(e.file_path, e)]) []).map (fun p => p.2)

/-- `DebouncerService._flush_project` on one project: take the pending
map and deduplicate its values (timer bookkeeping and the callback do
not affect the returned list). -/
def flush_project (pending : List (String × FileEvent)) : List FileEvent :=
  deduplicate_events (pending.map (fun p => p.2))

/-- Add a sequence of events for one project, then flush. -/
def debouncer_run (events : List FileEvent) : List FileEvent :=
  flush_project (events.foldl add_event [])

/-! ## Local-path validation (project_service_sync.py) -/

/-- What `_validate_local_path` observes about the already-resolved
path: `os.path.abspath(os.path.expanduser(path))` is environmental and
is taken as given, together with the three filesystem probes. -/
structure PathInfo where
  resolved : String
  existsOnDisk : Bool
  readable : Bool
  isDir : Bool
deriving DecidableEq, Repr

/-- The forbidden prefix list of `_validate_local_path`, in source
order. -/
def forbidden_system_dirs : List String :=
  ["/etc", "/usr", "/bin", "/sbin", "/sys", "/proc",
   "C:\\Windows", "C:\\Program Files", "/var/lib", "/root",
   "C:\\Windows\\System32", "/System", "/Library/System"]

/-- `_validate_local_path` after resolution: the checks in source order;
`Except.ok` means no ValueError was raised. -/
def validate_local_path (p : PathInfo) : Except String Unit :=
  if forbidden_system_dirs.any
      (fun f => f.toList.isPrefixOf p.resolved.toList) then
    .error "Cannot access system directory"
  else if ¬ p.existsOnDisk then .error "Path does not exist"
  else if ¬ p.readable then .error "No read permission for path"
  else if ¬ p.isDir then .error "Path is not a directory"
  else .ok ()
/-! ## Theorems for claim C9: local-path validation -/

/-- The forbidden prefix list as the claim enumerates it (the source
additionally lists C:\Windows\System32, which is subsumed by
C:\Windows). -/
def claim_forbidden_prefixes : List String :=
  ["/etc", "/usr", "/bin", "/sbin", "/sys", "/proc", "/var/lib", "/root",
   "/System", "/Library/System", "C:\\Windows", "C:\\Program Files"]

lemma mem_forbidden_split (f : String) (hf : f ∈ forbidden_system_dirs) :
    f ∈ claim_forbidden_prefixes ∨ f = "C:\\Windows\\System32" := by
  simp only [forbidden_system_dirs, List.mem_cons, List.not_mem_nil,
    or_false] at hf
  rcases hf with rfl|rfl|rfl|rfl|rfl|rfl|rfl|rfl|rfl|rfl|rfl|rfl|rfl <;>
    simp [claim_forbidden_prefixes]

lemma mem_claim_forbidden (f : String) (hf : f ∈ claim_forbidden_prefixes) :
    f ∈ forbidden_system_dirs := by
  simp only [claim_forbidden_prefixes, List.mem_cons, List.not_mem_nil,
    or_false] at hf
  rcases hf with rfl|rfl|rfl|rfl|rfl|rfl|rfl|rfl|rfl|rfl|rfl|rfl <;>
    simp [forbidden_system_dirs]

lemma forbidden_any_iff (cs : List Char) :
    forbidden_system_dirs.any (fun f => f.toList.isPrefixOf cs) = true ↔
      ∃ f ∈ claim_forbidden_prefixes, f.toList <+: cs := by
  have hsub : ("C:\\Windows\\System32".toList.isPrefixOf cs) = true →
      ("C:\\Windows".toList.isPrefixOf cs) = true := by
    intro h
    rw [List.isPrefixOf_iff_prefix] at h ⊢
    exact List.IsPrefix.trans (by decide) h
  rw [List.any_eq_true]
  constructor
  · rintro ⟨f, hf, hp⟩
    rcases mem_forbidden_split f hf with hc | rfl
    · exact ⟨f, hc, List.isPrefixOf_iff_prefix.mp hp⟩
    · exact ⟨"C:\\Windows", by simp [claim_forbidden_prefixes],
        List.isPrefixOf_iff_prefix.mp (hsub hp)⟩
  · rintro ⟨f, hf, hp⟩
    exact ⟨f, mem_claim_forbidden f hf,
      List.isPrefixOf_iff_prefix.mpr hp⟩

/-- C9: validation of a project local_path accepts the resolved path
exactly when it avoids every forbidden system prefix of the claim list,
exists, is a directory, and is readable; it raises a ValueError in
every other case (the check order in the source is prefixes, existence,
readability, directoriness, but the acceptance condition is their
conjunction). Path resolution is environmental; the statement
quantifies over resolved paths. -/
theorem claim_C9 (p : PathInfo) :
    validate_local_path p = .ok () ↔
      ((∀ f ∈ claim_forbidden_prefixes, ¬ f.toList <+: p.resolved.toList) ∧
        p.existsOnDisk = true ∧ p.isDir = true ∧ p.readable = true) := by
  unfold validate_local_path
  by_cases hb : forbidden_system_dirs.any
      (fun f => f.toList.isPrefixOf p.resolved.toList) = true
  · obtain ⟨f, hf, hp⟩ := (forbidden_any_iff p.resolved.toList).mp hb
    simp only [hb, if_true]
    constructor
    · intro h; cases h
    · rintro ⟨hall, -⟩
      exact absurd hp (hall f hf)
  · have hclaim : ∀ f ∈ claim_forbidden_prefixes,
        ¬ f.toList <+: p.resolved.toList := by
      intro f hf hp
      exact hb ((forbidden_any_iff p.resolved.toList).mpr ⟨f, hf, hp⟩)
    simp only [Bool.not_eq_true] at hb
    simp only [hb, Bool.false_eq_true, if_false]
    cases h2 : p.existsOnDisk <;> cases h3 : p.readable <;>
      cases h4 : p.isDir <;> simp <;> exact hclaim

/-! ## Theorems for claim C5: change categorization -/

/-- The added predicate of `_categorize_changes`. -/
def is_added_file (env : String → FileStatus) (f : String) : Bool :=
  (env f).existsOnDisk && (env f).chunks.isEmpty

/-- The modified predicate of `_categorize_changes`. -/
def is_modified_file (env : String → FileStatus) (f : String) : Bool :=
  (env f).existsOnDisk && !(env f).chunks.isEmpty &&
    decide (some (env f).current_hash ≠
      ((env f).chunks.head?.bind (fun c => c.file_hash)))

/-- The deleted predicate actually used by `_categorize_changes`: the
path does not exist; stored chunks are not consulted. -/
def is_deleted_file (env : String → FileStatus) (f : String) : Bool :=
  !(env f).existsOnDisk

lemma categorize_changes_go (env : String → FileStatus) :
    ∀ (files : List String) (a m d : List String),
      files.foldl (categorize_step env) (a, m, d) =
      (a ++ files.filter (is_added_file env),
       m ++ files.filter (is_modified_file env),
       d ++ files.filter (is_deleted_file env))
  | [], a, m, d => by simp
  | f :: files, a, m, d => by
    rw [List.foldl_cons]
    by_cases h1 : (env f).existsOnDisk = true
    · by_cases h2 : (env f).chunks.isEmpty = true
      · have hstep : categorize_step env (a, m, d) f = (a ++ [f], m, d) := by
          simp [categorize_step, h1, h2]
        rw [hstep, categorize_changes_go env files (a ++ [f]) m d]
        have hpa : is_added_file env f = true := by
          simp [is_added_file, h1, h2]
        have hpm : is_modified_file env f = false := by
          simp [is_modified_file, h2]
        have hpd : is_deleted_file env f = false := by
          simp [is_deleted_file, h1]
        simp [List.filter_cons, hpa, hpm, hpd]
      · by_cases h3 : some (env f).current_hash ≠
            ((env f).chunks.head?.bind (fun c => c.file_hash))
        · have hstep : categorize_step env (a, m, d) f = (a, m ++ [f], d) := by
            simp only [categorize_step, h1, h2]
            simp [h3]
          rw [hstep, categorize_changes_go env files a (m ++ [f]) d]
          have hpa : is_added_file env f = false := by
            simp [is_added_file, h2]
          have hpm : is_modified_file env f = true := by
            simp [is_modified_file, h1, h2, h3]
          have hpd : is_deleted_file env f = false := by
            simp [is_deleted_file, h1]
          simp [List.filter_cons, hpa, hpm, hpd]
        · have hstep : categorize_step env (a, m, d) f = (a, m, d) := by
            simp only [categorize_step, h1, h2]
            simp [h3]
          rw [hstep, categorize_changes_go env files a m d]
          have hpa : is_added_file env f = false := by
            simp [is_added_file, h2]
          have hpm : is_modified_file env f = false := by
            simp [is_modified_file, h3]
          have hpd : is_deleted_file env f = false := by
            simp [is_deleted_file, h1]
          simp [List.filter_cons, hpa, hpm, hpd]
    · have hstep : categorize_step env (a, m, d) f = (a, m, d ++ [f]) := by
        simp [categorize_step, h1]
      rw [hstep, categorize_changes_go env files a m (d ++ [f])]
      have hpa : is_added_file env f = false := by
        simp [is_added_file, h1]
      have hpm : is_modified_file env f = false := by
        simp [is_modified_file, h1]
      have hpd : is_deleted_file env f = true := by
        simp [is_deleted_file, h1]
      simp [List.filter_cons, hpa, hpm, hpd]

/-- C5 as amended: a candidate is classified deleted exactly when its
path no longer exists on disk — whether or not chunks are stored for it
(the source appends to `deleted_files` before consulting the store);
added exactly when the path exists with no stored chunks; modified
exactly when the path exists, has chunks, and the current disk digest
differs from the `file_hash` of the first stored chunk; all remaining
files are dropped. -/
theorem claim_C5_amended (files : List String) (env : String → FileStatus) :
    categorize_changes files env =
      (files.filter (is_added_file env),
       files.filter (is_modified_file env),
       files.filter (is_deleted_file env)) := by
  unfold categorize_changes
  simpa using categorize_changes_go env files [] [] []

/-- C5 counterexample: a candidate path that does not exist and has no
chunks in the store is still classified deleted by the code, while the
claim classifies a file as deleted only when the file has chunks in the
store. -/
theorem claim_C5_counterexample :
    (categorize_changes ["f"]
        (fun _ => { existsOnDisk := false, chunks := [], current_hash := "h" })).2.2
      = ["f"] ∧
    ({ existsOnDisk := false, chunks := [], current_hash := "h" }
        : FileStatus).chunks = [] := by
  exact ⟨rfl, rfl⟩

/-! ## Theorems for claim C6: debouncer coalescing -/

lemma add_event_single_file (f : String) :
    ∀ (events : List FileEvent) (e : FileEvent), e.file_path = f →
      (∀ x ∈ events, x.file_path = f) →
      events.foldl add_event [(f, e)] =
        [(f, (e :: events).getLast (List.cons_ne_nil e events))]
  | [], e, he, _ => by simp
  | x :: events, e, he, hall => by
    have hx : x.file_path = f := hall x (by simp)
    have step : add_event [(f, e)] x = [(f, x)] := by
      simp [add_event, dictInsert, hx]
    rw [List.foldl_cons, step, add_event_single_file f events x hx
      (fun y hy => hall y (by simp [hy]))]
    simp [List.getLast_cons]

/-- C6 as amended: for any sequence of events on the same
(project, file), the flush produces exactly one entry for that file,
and that entry is the most recently added event (which coincides with
the greatest-timestamp one only when timestamps are nondecreasing in
arrival order): `add_event` overwrites the per-file entry
unconditionally. -/
theorem claim_C6_amended (events : List FileEvent) (f : String)
    (hne : events ≠ []) (hall : ∀ x ∈ events, x.file_path = f) :
    debouncer_run events = [events.getLast hne] := by
  unfold debouncer_run flush_project
  match events, hne with
  | e :: rest, _ =>
    have he : e.file_path = f := hall e (by simp)
    have h0 : add_event [] e = [(f, e)] := by simp [add_event, dictInsert, he]
    rw [List.foldl_cons, h0,
      add_event_single_file f rest e he (fun y hy => hall y (by simp [hy]))]
    simp [deduplicate_events]

/-- Witness for C6 as amended at a concrete burst: two events on the
same file flush to the single most recently added event. -/
theorem claim_C6_witness :
    debouncer_run
      [⟨"modified", "p", "a.py", 1⟩, ⟨"modified", "p", "a.py", 2⟩] =
      [⟨"modified", "p", "a.py", 2⟩] :=
  claim_C6_amended
    [⟨"modified", "p", "a.py", 1⟩, ⟨"modified", "p", "a.py", 2⟩]
    "a.py" (by decide) (by decide)

/-- C6 counterexample: when a later-added event carries a smaller
timestamp, the flush returns it rather than the greatest-timestamp
event, refuting the claim as stated. -/
theorem claim_C6_counterexample :
    debouncer_run
      [⟨"modified", "p", "a.py", 5⟩, ⟨"modified", "p", "a.py", 3⟩] =
      [⟨"modified", "p", "a.py", 3⟩] ∧
    (⟨"modified", "p", "a.py", 5⟩ : FileEvent).timestamp >
      (⟨"modified", "p", "a.py", 3⟩ : FileEvent).timestamp := by
  exact ⟨rfl, by decide⟩
/-! ## Theorems for claim C3: BatchEmbedder retry policy -/

lemma pow_shift_map (k j : Nat) :
    (List.range j).map ((fun i => 2 ^ (k + i + 1)) ∘ Nat.succ) =
      (List.range j).map (fun i => 2 ^ (k + 1 + i + 1)) :=
  List.map_congr_left (fun i _ => by
    show 2 ^ (k + Nat.succ i + 1) = 2 ^ (k + 1 + i + 1)
    congr 1
    omega)

lemma embed_retry_go_ok (attempt : Nat → Except Err (List Nat)) (maxR : Nat) :
    ∀ (j k : Nat) (v : List Nat),
      (∀ i < j, ∃ e, attempt (k + i) = .error e ∧ is_rate_limit_error e = true) →
      attempt (k + j) = .ok v → k + j ≤ maxR →
      embed_retry_go attempt maxR k (maxR + 1 - k) =
        (.ok v, (List.range j).map (fun i => 2 ^ (k + i + 1)))
  | 0, k, v, _, hok, hle => by
    have hfuel : maxR + 1 - k = (maxR - k) + 1 := by omega
    rw [hfuel]
    simp only [embed_retry_go]
    rw [show k + 0 = k from rfl] at hok
    simp [hok]
  | j + 1, k, v, hrl, hok, hle => by
    obtain ⟨e, he, herl⟩ := hrl 0 (by omega)
    rw [show k + 0 = k from rfl] at he
    have hfuel : maxR + 1 - k = (maxR - k) + 1 := by omega
    have hfuel2 : maxR - k = maxR + 1 - (k + 1) := by omega
    rw [hfuel]
    simp only [embed_retry_go, he]
    have hnotover : ¬ maxR < k + 1 := by omega
    rw [if_neg hnotover, if_pos herl, hfuel2,
      embed_retry_go_ok attempt maxR j (k + 1) v
        (fun i hi => by
          obtain ⟨e', he', hrl'⟩ := hrl (i + 1) (by omega)
          exact ⟨e', by rw [show k + 1 + i = k + (i + 1) by omega]; exact he',
            hrl'⟩)
        (by rw [show k + 1 + j = k + (j + 1) by omega]; exact hok)
        (by omega)]
    rw [List.range_succ_eq_map, List.map_cons, List.map_map, pow_shift_map]

lemma embed_retry_go_fail (attempt : Nat → Except Err (List Nat)) (maxR : Nat) :
    ∀ (j k : Nat) (e : Err),
      (∀ i < j, ∃ e', attempt (k + i) = .error e' ∧
        is_rate_limit_error e' = true) →
      attempt (k + j) = .error e →
      (is_rate_limit_error e = false ∨ k + j = maxR) → k + j ≤ maxR →
      embed_retry_go attempt maxR k (maxR + 1 - k) =
        (.error e, (List.range j).map (fun i => 2 ^ (k + i + 1)))
  | 0, k, e, _, herr, hstop, hle => by
    have hfuel : maxR + 1 - k = (maxR - k) + 1 := by omega
    rw [hfuel]
    simp only [embed_retry_go]
    rw [show k + 0 = k from rfl] at herr
    rw [show k + 0 = k from rfl] at hstop
    rcases hstop with hs | hs
    · by_cases hover : maxR < k + 1
      · simp [herr, hover]
      · simp [herr, hover, hs]
    · have hover : maxR < k + 1 := by omega
      simp [herr, hover]
  | j + 1, k, e, hrl, herr, hstop, hle => by
    obtain ⟨e', he', herl'⟩ := hrl 0 (by omega)
    rw [show k + 0 = k from rfl] at he'
    have hfuel : maxR + 1 - k = (maxR - k) + 1 := by omega
    have hfuel2 : maxR - k = maxR + 1 - (k + 1) := by omega
    rw [hfuel]
    simp only [embed_retry_go, he']
    have hnotover : ¬ maxR < k + 1 := by omega
    rw [if_neg hnotover, if_pos herl', hfuel2,
      embed_retry_go_fail attempt maxR j (k + 1) e
        (fun i hi => by
          obtain ⟨e'', he'', hrl''⟩ := hrl (i + 1) (by omega)
          exact ⟨e'', by rw [show k + 1 + i = k + (i + 1) by omega]; exact he'',
            hrl''⟩)
        (by rw [show k + 1 + j = k + (j + 1) by omega]; exact herr)
        (by rcases hstop with hs | hs
            · exact Or.inl hs
            · exact Or.inr (by omega))
        (by omega)]
    rw [List.range_succ_eq_map, List.map_cons, List.map_map, pow_shift_map]

lemma zero_add_pow_map (j : Nat) :
    (List.range j).map (fun i => 2 ^ (0 + i + 1)) =
      (List.range j).map (fun i => 2 ^ (i + 1)) :=
  List.map_congr_left (fun i _ => by norm_num)

/-- C3 as amended: a failed batch attempt is retried, with exponential
backoff sleeps of 2^n seconds, exactly when `_is_rate_limit_error`
matches the message against its indicator list (rate limit, too many
requests, quota exceeded, 429, throttle, slow down) and the retry
budget `max_retries` is not exhausted; a failure without such an
indicator — including failures whose classified category is retryable,
such as network or database errors — is surfaced immediately. Part one:
success after j rate-limited failures sleeps 2^1..2^j; part two: a
non-rate-limit failure after j rate-limited failures surfaces at once
with only the earlier sleeps; part three: rate-limited failures through
the whole budget surface the final error after max_retries sleeps. -/
theorem claim_C3_amended :
    (∀ (attempt : Nat → Except Err (List Nat)) (maxR j : Nat) (v : List Nat),
      (∀ i < j, ∃ e, attempt i = .error e ∧ is_rate_limit_error e = true) →
      attempt j = .ok v → j ≤ maxR →
      embed_batch_with_retry attempt maxR =
        (.ok v, (List.range j).map (fun i => 2 ^ (i + 1)))) ∧
    (∀ (attempt : Nat → Except Err (List Nat)) (maxR j : Nat) (e : Err),
      (∀ i < j, ∃ e', attempt i = .error e' ∧ is_rate_limit_error e' = true) →
      attempt j = .error e → is_rate_limit_error e = false → j ≤ maxR →
      embed_batch_with_retry attempt maxR =
        (.error e, (List.range j).map (fun i => 2 ^ (i + 1)))) ∧
    (∀ (attempt : Nat → Except Err (List Nat)) (maxR : Nat) (e : Err),
      (∀ i < maxR, ∃ e', attempt i = .error e' ∧
        is_rate_limit_error e' = true) →
      attempt maxR = .error e →
      embed_batch_with_retry attempt maxR =
        (.error e, (List.range maxR).map (fun i => 2 ^ (i + 1)))) := by
  refine ⟨fun attempt maxR j v hrl hok hle => ?_,
    fun attempt maxR j e hrl herr hnl hle => ?_,
    fun attempt maxR e hrl herr => ?_⟩
  · have h := embed_retry_go_ok attempt maxR j 0 v
      (fun i hi => by simpa using hrl i hi) (by simpa using hok) (by omega)
    show embed_retry_go attempt maxR 0 (maxR + 1) = _
    rw [show maxR + 1 = maxR + 1 - 0 from rfl, h, zero_add_pow_map]
  · have h := embed_retry_go_fail attempt maxR j 0 e
      (fun i hi => by simpa using hrl i hi) (by simpa using herr)
      (Or.inl hnl) (by omega)
    show embed_retry_go attempt maxR 0 (maxR + 1) = _
    rw [show maxR + 1 = maxR + 1 - 0 from rfl, h, zero_add_pow_map]
  · have h := embed_retry_go_fail attempt maxR maxR 0 e
      (fun i hi => by simpa using hrl i hi) (by simpa using herr)
      (Or.inr (by omega)) (by omega)
    show embed_retry_go attempt maxR 0 (maxR + 1) = _
    rw [show maxR + 1 = maxR + 1 - 0 from rfl, h, zero_add_pow_map]

/-- Witness for C3 as amended: a 429 failure then success retries with
a 2-second sleep; a non-rate-limit failure surfaces at once; two
rate-limited failures exhaust a budget of two retries after sleeping
2 and 4 seconds. -/
theorem claim_C3_witness :
    embed_batch_with_retry
      (fun k => if k = 0 then .error ⟨"Exception", "429 Too Many Requests"⟩
        else .ok [5]) 3 =
      (.ok [5], [2]) ∧
    embed_batch_with_retry
      (fun _ => .error ⟨"Exception", "boom"⟩) 3 =
      (.error ⟨"Exception", "boom"⟩, []) ∧
    embed_batch_with_retry
      (fun _ => .error ⟨"Exception", "quota exceeded"⟩) 2 =
      (.error ⟨"Exception", "quota exceeded"⟩, [2, 4]) := by
  refine ⟨?_, ?_, ?_⟩
  · exact claim_C3_amended.1
      (fun k => if k = 0 then .error ⟨"Exception", "429 Too Many Requests"⟩
        else .ok [5]) 3 1 [5]
      (fun i hi => by
        interval_cases i
        exact ⟨⟨"Exception", "429 Too Many Requests"⟩, rfl, by decide⟩)
      rfl (by omega)
  · exact claim_C3_amended.2.1 (fun _ => .error ⟨"Exception", "boom"⟩) 3 0
      ⟨"Exception", "boom"⟩ (fun i hi => by omega) rfl (by decide) (by omega)
  · exact claim_C3_amended.2.2 (fun _ => .error ⟨"Exception", "quota exceeded"⟩)
      2 ⟨"Exception", "quota exceeded"⟩
      (fun i hi => ⟨⟨"Exception", "quota exceeded"⟩, rfl, by decide⟩) rfl

/-- C3 counterexample: an error message "connection refused by host"
classifies as network, a retryable category, yet
`_embed_batch_with_retry` surfaces it on the first failure with no
retry and no sleep even though the second attempt would have
succeeded — refuting retry-exactly-when-the-category-is-retryable. -/
theorem claim_C3_counterexample :
    is_retryable (classify ⟨"Exception", "connection refused by host"⟩)
      = true ∧
    embed_batch_with_retry
      (fun k => if k = 0 then .error ⟨"Exception", "connection refused by host"⟩
        else .ok [7]) 3 =
      (.error ⟨"Exception", "connection refused by host"⟩, []) := by
  exact ⟨by decide, rfl⟩

/-! ## Theorems for claim C4: circuit breaker state machine -/

/-- Fold a list of failing calls through the breaker. -/
def cb_run_failures (cb : CircuitBreaker) (ts : List Int) : CircuitBreaker :=
  ts.foldl (fun c t => (cb_call c t .failure).2) cb

lemma cb_run_failures_closed (cb : CircuitBreaker) :
    ∀ (ts : List Int) (tn : Int), cb.state = .CLOSED →
      cb.failure_count + (ts ++ [tn]).length = cb.failure_threshold →
      cb_run_failures cb (ts ++ [tn]) =
        { cb with state := .OPEN, failure_count := cb.failure_threshold,
                  last_failure_time := some tn }
  | [], tn, hclosed, hcount => by
    simp only [List.nil_append, List.length_cons, List.length_nil] at hcount
    simp only [cb_run_failures, List.foldl_cons, List.foldl_nil]
    have hth : cb.failure_threshold ≤ cb.failure_count + 1 := by omega
    have heq : cb.failure_count + 1 = cb.failure_threshold := by omega
    simp [cb_call, hclosed, cb_on_failure, hth, heq]
  | t :: ts, tn, hclosed, hcount => by
    simp only [List.cons_append, List.length_cons, List.length_append,
      List.length_nil] at hcount
    simp only [cb_run_failures, List.cons_append, List.foldl_cons]
    have hth : ¬ cb.failure_threshold ≤ cb.failure_count + 1 := by omega
    have hstep : (cb_call cb t .failure).2 =
        { cb with failure_count := cb.failure_count + 1,
                  last_failure_time := some t } := by
      simp [cb_call, hclosed, cb_on_failure, hth]
    rw [hstep]
    have h := cb_run_failures_closed
      { cb with failure_count := cb.failure_count + 1,
                last_failure_time := some t } ts tn hclosed
      (by simp only [List.length_append, List.length_cons, List.length_nil]
          omega)
    simp only [cb_run_failures] at h
    rw [h]

/-- C4: the circuit breaker state machine. (1) From a fresh CLOSED
breaker, `failure_threshold` consecutive failed calls move the state to
OPEN, and the next call attempted no more than `timeout` seconds after
the last failure is rejected with an error whose classified category is
circuit_breaker; (2) a call attempted strictly more than `timeout`
seconds after the last failure while OPEN is admitted (through
HALF_OPEN) and executes; (3) a success in HALF_OPEN returns the state
to CLOSED with failure_count = 0; (4) a failure in HALF_OPEN returns
the state to OPEN. -/
theorem claim_C4 :
    (∀ (cb : CircuitBreaker) (ts : List Int) (tn t : Int) (o : CallOutcome),
      cb.state = .CLOSED → cb.failure_count = 0 →
      (ts ++ [tn]).length = cb.failure_threshold →
      t - tn ≤ cb.timeout →
      (cb_run_failures cb (ts ++ [tn])).state = .OPEN ∧
      (cb_call (cb_run_failures cb (ts ++ [tn])) t o).1 =
        .rejected circuitOpenError ∧
      classify circuitOpenError = "circuit_breaker") ∧
    (∀ (cb : CircuitBreaker) (t lf : Int) (o : CallOutcome),
      cb.state = .OPEN → cb.last_failure_time = some lf →
      cb.timeout < t - lf → 1 ≤ cb.half_open_max_calls →
      (cb_call cb t o).1 = .completed o) ∧
    (∀ (cb : CircuitBreaker) (t : Int),
      cb.state = .HALF_OPEN → cb.half_open_calls < cb.half_open_max_calls →
      (cb_call cb t .success).1 = .completed .success ∧
      (cb_call cb t .success).2.state = .CLOSED ∧
      (cb_call cb t .success).2.failure_count = 0) ∧
    (∀ (cb : CircuitBreaker) (t : Int),
      cb.state = .HALF_OPEN → cb.half_open_calls < cb.half_open_max_calls →
      (cb_call cb t .failure).1 = .completed .failure ∧
      (cb_call cb t .failure).2.state = .OPEN) := by
  refine ⟨fun cb ts tn t o hclosed hcount hlen hwithin => ?_,
    fun cb t lf o hopen hlf htime hmax => ?_,
    fun cb t hho hcalls => ?_, fun cb t hho hcalls => ?_⟩
  · have hrun := cb_run_failures_closed cb ts tn hclosed (by omega)
    rw [hrun]
    refine ⟨rfl, ?_, by decide⟩
    have hng : ¬ t - tn > cb.timeout := by omega
    simp [cb_call, hng]
  · have hgt : t - lf > cb.timeout := by omega
    have hno : ¬ cb.half_open_max_calls ≤ 0 := by omega
    cases o <;> simp [cb_call, hopen, hlf, hgt, hno]
  · have hcl : ¬ cb.half_open_max_calls ≤ cb.half_open_calls := by omega
    refine ⟨?_, ?_, ?_⟩ <;> simp [cb_call, hho, hcl, cb_on_success]
  · have hcl : ¬ cb.half_open_max_calls ≤ cb.half_open_calls := by omega
    refine ⟨?_, ?_⟩ <;> simp [cb_call, hho, hcl, cb_on_failure]

/-- Witness for C4 at concrete parameters: threshold 2, timeout 300.
Two failures at times 0 and 10 open the breaker; a call at time 200 is
rejected with the circuit_breaker category; an OPEN breaker probed 301
seconds after its last failure admits the call; HALF_OPEN success
closes with zero failures; HALF_OPEN failure reopens. -/
theorem claim_C4_witness :
    ((cb_run_failures
        { failure_threshold := 2, timeout := 300, half_open_max_calls := 1,
          state := .CLOSED, failure_count := 0, last_failure_time := none,
          half_open_calls := 0 } ([0] ++ [10])).state = .OPEN ∧
      (cb_call (cb_run_failures
        { failure_threshold := 2, timeout := 300, half_open_max_calls := 1,
          state := .CLOSED, failure_count := 0, last_failure_time := none,
          half_open_calls := 0 } ([0] ++ [10])) 200 .success).1 =
        .rejected circuitOpenError ∧
      classify circuitOpenError = "circuit_breaker") ∧
    (cb_call
        { failure_threshold := 2, timeout := 300, half_open_max_calls := 1,
          state := .OPEN, failure_count := 2, last_failure_time := some 10,
          half_open_calls := 0 } 311 .success).1 = .completed .success ∧
    ((cb_call
        { failure_threshold := 2, timeout := 300, half_open_max_calls := 1,
          state := .HALF_OPEN, failure_count := 2, last_failure_time := some 10,
          half_open_calls := 0 } 311 .success).2.state = .CLOSED ∧
      (cb_call
        { failure_threshold := 2, timeout := 300, half_open_max_calls := 1,
          state := .HALF_OPEN, failure_count := 2, last_failure_time := some 10,
          half_open_calls := 0 } 311 .success).2.failure_count = 0) ∧
    (cb_call
        { failure_threshold := 2, timeout := 300, half_open_max_calls := 1,
          state := .HALF_OPEN, failure_count := 2, last_failure_time := some 10,
          half_open_calls := 0 } 311 .failure).2.state = .OPEN := by
  refine ⟨?_, ?_, ?_, ?_⟩
  · exact claim_C4.1
      { failure_threshold := 2, timeout := 300, half_open_max_calls := 1,
        state := .CLOSED, failure_count := 0, last_failure_time := none,
        half_open_calls := 0 } [0] 10 200 .success rfl rfl (by decide)
      (by decide)
  · exact claim_C4.2.1
      { failure_threshold := 2, timeout := 300, half_open_max_calls := 1,
        state := .OPEN, failure_count := 2, last_failure_time := some 10,
        half_open_calls := 0 } 311 10 .success rfl rfl (by decide) (by decide)
  · have h := claim_C4.2.2.1
      { failure_threshold := 2, timeout := 300, half_open_max_calls := 1,
        state := .HALF_OPEN, failure_count := 2, last_failure_time := some 10,
        half_open_calls := 0 } 311 rfl (by decide)
    exact ⟨h.2.1, h.2.2⟩
  · exact (claim_C4.2.2.2
      { failure_threshold := 2, timeout := 300, half_open_max_calls := 1,
        state := .HALF_OPEN, failure_count := 2, last_failure_time := some 10,
        half_open_calls := 0 } 311 rfl (by decide)).2

/-! ## Theorems for claim C1: the chunk-level diff -/

lemma dictInsert_not_mem {α β : Type} [DecidableEq α] (m : List (α × β))
    (k : α) (v : β) (h : ∀ p ∈ m, p.1 ≠ k) :
    dictInsert m k v = m ++ [(k, v)] := by
  unfold dictInsert
  rw [if_neg]
  intro hc
  rw [List.any_eq_true] at hc
  obtain ⟨p, hp, he⟩ := hc
  exact h p hp (by simpa using he)

lemma dictOfList_gen {α β : Type} [DecidableEq α] :
    ∀ (l m : List (α × β)), ((m ++ l).map Prod.fst).Nodup →
      l.foldl (fun acc p => dictInsert acc p.1 p.2) m = m ++ l
  | [], m, _ => by simp
  | (k, v) :: rest, m, h => by
    have hkm : ∀ p ∈ m, p.1 ≠ k := by
      intro p hp he
      have h' : (List.map Prod.fst m ++
          List.map Prod.fst ((k, v) :: rest)).Nodup := by
        rw [← List.map_append]
        exact h
      have hd := (List.nodup_append.mp h').2.2
      exact hd (List.mem_map_of_mem Prod.fst hp) (by simp [he])
    rw [List.foldl_cons, dictInsert_not_mem m k v hkm,
      dictOfList_gen rest (m ++ [(k, v)]) (by simpa using h)]
    simp

lemma dictOfList_of_nodup {α β : Type} [DecidableEq α] (l : List (α × β))
    (h : (l.map Prod.fst).Nodup) : dictOfList l = l := by
  unfold dictOfList
  simpa using dictOfList_gen l [] (by simpa using h)

lemma any_key_map {α β γ : Type} [DecidableEq α] (l : List β) (f : β → α)
    (g : β → γ) (k : α) :
    ((l.map (fun b => (f b, g b))).any (fun p => p.1 = k)) =
      decide (k ∈ l.map f) := by
  induction l with
  | nil => simp
  | cons b rest ih =>
    by_cases hk : f b = k
    · simp [hk]
    · simp [ih, hk, Ne.symm hk]

lemma stored_pairs_eq :
    ∀ (old : List StoredChunk), (∀ c ∈ old, c.chunk_hash.isSome) →
      old.filterMap (fun c => c.chunk_hash.map (fun h => (h, c))) =
        old.map (fun c => (c.chunk_hash.getD [], c))
  | [], _ => rfl
  | c :: rest, hall => by
    cases hc : c.chunk_hash with
    | none => exact absurd (hall c (by simp)) (by simp [hc])
    | some h =>
      simp [List.filterMap_cons, hc,
        stored_pairs_eq rest (fun x hx => hall x (by simp [hx]))]

lemma stored_hashes_eq :
    ∀ (old : List StoredChunk), (∀ c ∈ old, c.chunk_hash.isSome) →
      old.filterMap (fun c => c.chunk_hash) =
        old.map (fun c => c.chunk_hash.getD [])
  | [], _ => rfl
  | c :: rest, hall => by
    cases hc : c.chunk_hash with
    | none => exact absurd (hall c (by simp)) (by simp [hc])
    | some h =>
      simp [List.filterMap_cons, hc,
        stored_hashes_eq rest (fun x hx => hall x (by simp [hx]))]

/-- C1 as amended: the diff is computed hash-wise through dicts keyed by
`chunk_hash`, so it deletes one stored chunk per distinct old hash
absent from the new hashes and adds one new chunk per distinct new hash
absent from the old hashes; when the old chunks carry pairwise distinct
hashes and the new chunks carry pairwise distinct hashes (the intended
regime, and the stored-side invariant), this is exactly the set of old
chunks whose hash does not occur among the new hashes and the set of
new chunks whose hash does not occur among the old hashes; chunks with
unchanged hashes are left in place, and the aggregation step adds
|to_add| to chunks_modified and |to_delete| to chunks_deleted. The set
differences are stated up to permutation because Python iterates them
in unspecified order. -/
theorem claim_C1_amended (old_chunks : List StoredChunk)
    (new_chunks : List ChunkObject) (stats : SyncStats)
    (hall : ∀ c ∈ old_chunks, c.chunk_hash.isSome)
    (hold : (old_chunks.filterMap (fun c => c.chunk_hash)).Nodup)
    (hnew : (new_chunks.map (fun c => c.metadata.chunk_hash)).Nodup) :
    (compute_chunk_diff old_chunks new_chunks).1.Perm
      ((old_chunks.filter (fun c =>
        decide (c.chunk_hash.getD [] ∉
          new_chunks.map (fun c' => c'.metadata.chunk_hash)))).map
        (fun c => c.id)) ∧
    (compute_chunk_diff old_chunks new_chunks).2.Perm
      (new_chunks.filter (fun c =>
        decide (c.metadata.chunk_hash ∉
          old_chunks.filterMap (fun c' => c'.chunk_hash)))) ∧
    apply_modified_result stats (compute_chunk_diff old_chunks new_chunks).1
        (compute_chunk_diff old_chunks new_chunks).2 =
      { stats with
          chunks_modified := stats.chunks_modified +
            (compute_chunk_diff old_chunks new_chunks).2.length,
          chunks_deleted := stats.chunks_deleted +
            (compute_chunk_diff old_chunks new_chunks).1.length,
          files_processed := stats.files_processed + 1 } := by
  have hhashes := stored_hashes_eq old_chunks hall
  have hpairs := stored_pairs_eq old_chunks hall
  have holdkeys : ((old_chunks.map
      (fun c => (c.chunk_hash.getD [], c))).map Prod.fst).Nodup := by
    rw [List.map_map]
    rw [hhashes] at hold
    simpa using hold
  have hnewkeys : ((new_chunks.map
      (fun c => (c.metadata.chunk_hash, c))).map Prod.fst).Nodup := by
    rw [List.map_map]
    simpa using hnew
  have hdiff : compute_chunk_diff old_chunks new_chunks =
      (((old_chunks.map (fun c => (c.chunk_hash.getD [], c))).filter
          (fun p => !dictHasKey
            (new_chunks.map (fun c => (c.metadata.chunk_hash, c))) p.1)).map
        (fun p => p.2.id),
       ((new_chunks.map (fun c => (c.metadata.chunk_hash, c))).filter
          (fun p => !dictHasKey
            (old_chunks.map (fun c => (c.chunk_hash.getD [], c))) p.1)).map
        (fun p => p.2)) := by
    unfold compute_chunk_diff
    rw [hpairs, dictOfList_of_nodup _ holdkeys, dictOfList_of_nodup _ hnewkeys]
  rw [hdiff]
  refine ⟨?_, ?_, rfl⟩
  · have heq : ((old_chunks.map (fun c => (c.chunk_hash.getD [], c))).filter
          (fun p => !dictHasKey
            (new_chunks.map (fun c => (c.metadata.chunk_hash, c))) p.1)).map
        (fun p => p.2.id) =
        (old_chunks.filter (fun c =>
          decide (c.chunk_hash.getD [] ∉
            new_chunks.map (fun c' => c'.metadata.chunk_hash)))).map
          (fun c => c.id) := by
      rw [List.filter_map, List.map_map]
      have hcong : List.filter
          ((fun p => !dictHasKey
              (new_chunks.map (fun c => (c.metadata.chunk_hash, c))) p.1) ∘
            (fun c => (c.chunk_hash.getD [], c))) old_chunks =
          List.filter (fun c =>
            decide (c.chunk_hash.getD [] ∉
              new_chunks.map (fun c' => c'.metadata.chunk_hash)))
            old_chunks := by
        apply List.filter_congr
        intro c _
        show (!(dictHasKey
            (new_chunks.map (fun c => (c.metadata.chunk_hash, c)))
            (c.chunk_hash.getD []))) = _
        unfold dictHasKey
        rw [any_key_map new_chunks (fun c' => c'.metadata.chunk_hash)
          (fun c' => c') (c.chunk_hash.getD [])]
        rw [decide_not]
        exact congrArg (fun b => !b) (decide_eq_decide.mpr Iff.rfl)
      rw [hcong]
      rfl
    exact heq ▸ List.Perm.refl _
  · have heq : ((new_chunks.map (fun c => (c.metadata.chunk_hash, c))).filter
          (fun p => !dictHasKey
            (old_chunks.map (fun c => (c.chunk_hash.getD [], c))) p.1)).map
        (fun p => p.2) =
        new_chunks.filter (fun c =>
          decide (c.metadata.chunk_hash ∉
            old_chunks.filterMap (fun c' => c'.chunk_hash))) := by
      rw [List.filter_map, List.map_map]
      have hcong : List.filter
          ((fun p => !dictHasKey
              (old_chunks.map (fun c => (c.chunk_hash.getD [], c))) p.1) ∘
            (fun c => (c.metadata.chunk_hash, c))) new_chunks =
          List.filter (fun c =>
            decide (c.metadata.chunk_hash ∉
              old_chunks.filterMap (fun c' => c'.chunk_hash)))
            new_chunks := by
        apply List.filter_congr
        intro c _
        show (!(dictHasKey
            (old_chunks.map (fun c => (c.chunk_hash.getD [], c)))
            c.metadata.chunk_hash)) = _
        unfold dictHasKey
        rw [any_key_map old_chunks (fun c' => c'.chunk_hash.getD [])
          (fun c' => c') c.metadata.chunk_hash]
        rw [← hhashes]
        rw [decide_not]
        exact congrArg (fun b => !b) (decide_eq_decide.mpr Iff.rfl)
      rw [hcong]
      exact List.map_id' _
    exact heq ▸ List.Perm.refl _

/-- A new chunk carrying content ["x"] at position 0. -/
def dupChunkA : ChunkObject :=
  { source_id := "s", content := ["x"], embedding := 1,
    metadata := {
      file_path := "f.py", relative_path := "f.py", file_hash := "h",
      chunk_hash := ["x"], language := "python", chunk_index := 0,
      start_line := 1, end_line := 1, section_type := none,
      section_name := none } }

/-- A distinct new chunk with the same content ["x"], hence the same
chunk_hash, at position 1 of the same file. -/
def dupChunkB : ChunkObject :=
  { source_id := "s", content := ["x"], embedding := 2,
    metadata := {
      file_path := "f.py", relative_path := "f.py", file_hash := "h",
      chunk_hash := ["x"], language := "python", chunk_index := 1,
      start_line := 2, end_line := 2, section_type := none,
      section_name := none } }

/-- C1 counterexample: with no old chunks and two new chunks that share
one chunk_hash (identical chunk text at two positions of the file), the
dict keyed by hash collapses them and the diff adds only one chunk,
while the claim requires both new chunks to be added (each has a hash
absent from the old hashes). -/
theorem claim_C1_counterexample :
    (compute_chunk_diff [] [dupChunkA, dupChunkB]).2.length = 1 ∧
    ([dupChunkA, dupChunkB].filter (fun c =>
      decide (c.metadata.chunk_hash ∉
        ([] : List StoredChunk).filterMap (fun c' => c'.chunk_hash)))).length
      = 2 := by
  exact ⟨rfl, rfl⟩

/-- A stored chunk whose hash ["a"] does not occur among the new
chunks. -/
def storedOld : StoredChunk := ⟨"id1", some ["a"], some "h"⟩

/-- A fresh SyncStats record. -/
def stats0 : SyncStats := {}

/-- Witness for C1 as amended at a concrete diff: one old chunk with
hash ["a"] against one new chunk with hash ["x"] deletes the old id and
adds the new chunk, and the aggregation bumps the counters by one
each. -/
theorem claim_C1_witness :
    (compute_chunk_diff [storedOld] [dupChunkA]).1.Perm
      (([storedOld].filter (fun c =>
        decide (c.chunk_hash.getD [] ∉
          [dupChunkA].map (fun c' => c'.metadata.chunk_hash)))).map
        (fun c => c.id)) ∧
    (compute_chunk_diff [storedOld] [dupChunkA]).2.Perm
      ([dupChunkA].filter (fun c =>
        decide (c.metadata.chunk_hash ∉
          [storedOld].filterMap (fun c' => c'.chunk_hash)))) ∧
    apply_modified_result stats0 (compute_chunk_diff [storedOld] [dupChunkA]).1
        (compute_chunk_diff [storedOld] [dupChunkA]).2 =
      { stats0 with
          chunks_modified := stats0.chunks_modified +
            (compute_chunk_diff [storedOld] [dupChunkA]).2.length,
          chunks_deleted := stats0.chunks_deleted +
            (compute_chunk_diff [storedOld] [dupChunkA]).1.length,
          files_processed := stats0.files_processed + 1 } :=
  claim_C1_amended [storedOld] [dupChunkA] stats0
    (by decide) (by decide) (by decide)

/-! ## Theorems for claim C2: chunk-hash uniqueness per file -/

lemma build_hash_sublist (sid fp rp fh lang : String) :
    ∀ (cs : List CodeChunk) (es : List (Option Nat)) (n : Nat),
      (((List.enumFrom n (cs.zip es)).filterMap (fun p =>
        match p.2.2 with
        | none => none
        | some emb =>
          some { source_id := sid, content := p.2.1.content,
                 embedding := emb,
                 metadata := {
                   file_path := fp, relative_path := rp, file_hash := fh,
                   chunk_hash := compute_chunk_hash p.2.1.content,
                   language := lang, chunk_index := p.1,
                   start_line := p.2.1.start_line,
                   end_line := p.2.1.end_line,
                   section_type := p.2.1.section_type,
                   section_name := p.2.1.section_name } : ChunkObject })).map
        (fun c => c.metadata.chunk_hash)).Sublist
        (cs.map (fun c => c.content))
  | [], es, n => by simp
  | c :: cs, [], n => by simp
  | c :: cs, oe :: es, n => by
    rw [List.zip_cons_cons, List.enumFrom_cons]
    cases oe with
    | none =>
      simp only [List.filterMap_cons]
      exact (build_hash_sublist sid fp rp fh lang cs es (n + 1)).cons _
    | some e =>
      simp only [List.filterMap_cons, List.map_cons]
      exact (build_hash_sublist sid fp rp fh lang cs es (n + 1)).cons₂ _

/-- C2 as amended: the added-file path inserts every chunk with a
successful embedding, so the chunk hashes of one file are free of
duplicates exactly when the Chunker emits pairwise distinct chunk
contents for that file; under that hypothesis the invariant holds
(digests are injective in the model by collision resistance). -/
theorem claim_C2_amended (sid fp rp fh : String) (lines : List String)
    (es : List (Option Nat))
    (h : ((chunk_file lines (detect_language fp)).map
      (fun c => c.content)).Nodup) :
    ((chunk_and_embed_file sid fp rp fh lines es).map
      (fun c => c.metadata.chunk_hash)).Nodup := by
  have hsub := build_hash_sublist sid fp rp fh (detect_language fp)
    (chunk_file lines (detect_language fp)) es 0
  exact List.Sublist.nodup hsub h

/-- Witness for C2 as amended: a two-line generic file yields one chunk
with a unique hash. -/
theorem claim_C2_witness :
    ((chunk_and_embed_file "s" "w.txt" "w.txt" "fh" ["a", "b"]
      [some 0]).map (fun c => c.metadata.chunk_hash)).Nodup :=
  claim_C2_amended "s" "w.txt" "w.txt" "fh" ["a", "b"] [some 0] (by decide)

set_option maxRecDepth 100000 in
/-- C2 counterexample: a 190-line file of identical lines, chunked
generically with the default window 100 and overlap 10, yields windows
at lines 1-100 and 91-190 with identical text, hence identical
chunk_hash; with every embedding successful both chunks are inserted
for the same (source, file_path), violating the claimed invariant. -/
theorem claim_C2_counterexample :
    ¬ ((chunk_and_embed_file "s" "repeat.dat" "repeat.dat" "fh"
        (List.replicate 190 "x")
        [some 0, some 1, some 2]).map
      (fun c => c.metadata.chunk_hash)).Nodup ∧
    ((chunk_and_embed_file "s" "repeat.dat" "repeat.dat" "fh"
        (List.replicate 190 "x")
        [some 0, some 1, some 2]).map
      (fun c => c.metadata.file_path)) =
      ["repeat.dat", "repeat.dat", "repeat.dat"] := by
  exact ⟨by decide, by decide⟩

/-! ## Theorems for claim C10: termination of the generic chunking loop -/

lemma genericGo_isSome (lines : List String) (maxL ov : Nat)
    (hov : ov < maxL) :
    ∀ (fuel : Nat) (idx : Int),
      (lines.length : Int) - idx ≤ fuel →
      (genericGo lines maxL ov fuel idx).isSome
  | 0, idx, hfuel => by
    have hidx : ¬ idx < (lines.length : Int) := by push_cast at hfuel; omega
    rw [genericGo, if_neg hidx]
    rfl
  | fuel + 1, idx, hfuel => by
    by_cases hidx : idx < (lines.length : Int)
    · rw [genericGo, if_pos hidx]
      have h := genericGo_isSome lines maxL ov hov fuel
        (idx + (maxL : Int) - (ov : Int)) (by push_cast at hfuel ⊢; omega)
      rcases hgo : genericGo lines maxL ov fuel
          (idx + (maxL : Int) - (ov : Int)) with _ | cs
      · rw [hgo] at h
        exact absurd h (by simp)
      · rfl
    · rw [genericGo, if_neg hidx]
      rfl

lemma genericGo_none (lines : List String) (maxL ov : Nat)
    (hov : maxL ≤ ov) (hne : lines ≠ []) :
    ∀ (fuel : Nat) (idx : Int), idx ≤ 0 →
      genericGo lines maxL ov fuel idx = none
  | 0, idx, hidx => by
    have hlen : 1 ≤ lines.length := List.length_pos.mpr hne
    have hlt : idx < (lines.length : Int) := by push_cast; omega
    rw [genericGo, if_pos hlt]
  | fuel + 1, idx, hidx => by
    have hlen : 1 ≤ lines.length := List.length_pos.mpr hne
    have hlt : idx < (lines.length : Int) := by push_cast; omega
    rw [genericGo, if_pos hlt,
      genericGo_none lines maxL ov hov hne fuel
        (idx + (maxL : Int) - (ov : Int)) (by push_cast; omega)]
    rfl

/-- C10: the `while idx < len(lines)` loop of `_chunk_generic` advances
its index by `max_lines - overlap_lines` per iteration, so it
terminates for every input exactly under `overlap_lines < max_lines`
(then `lines.length` iterations suffice); with
`overlap_lines ≥ max_lines` and a non-empty line list (every Python
text splits to a non-empty list) the index never reaches the length and
the loop runs forever, whatever fuel is granted. -/
theorem claim_C10 :
    (∀ (lines : List String) (maxL ov : Nat), ov < maxL →
      (genericGo lines maxL ov lines.length 0).isSome) ∧
    (∀ (lines : List String) (maxL ov : Nat), maxL ≤ ov → lines ≠ [] →
      ∀ fuel : Nat, genericGo lines maxL ov fuel 0 = none) := by
  constructor
  · intro lines maxL ov hov
    exact genericGo_isSome lines maxL ov hov lines.length 0 (by omega)
  · intro lines maxL ov hov hne fuel
    exact genericGo_none lines maxL ov hov hne fuel 0 (by omega)

/-- Witness for C10: a three-line file with window 2 and overlap 1
terminates; a one-line file with window 1 and overlap 1 exhausts any
fuel, here five units. -/
theorem claim_C10_witness :
    (genericGo ["a", "b", "c"] 2 1 (["a", "b", "c"] : List String).length
      0).isSome ∧
    genericGo ["a"] 1 1 5 0 = none :=
  ⟨claim_C10.1 ["a", "b", "c"] 2 1 (by omega),
   claim_C10.2 ["a"] 1 1 (by omega) (by decide) 5⟩

/-! ## Theorems for claim C7: chunker round trip and generic coverage -/

/-- Strip from each chunk the lines it carries from positions at or
before line `p` (the overlap carried from the previous chunk) and
concatenate; `p` is threaded as the last line number already
produced. -/
def reconstructFrom : Nat → List CodeChunk → List String
  | _, [] => []
  | p, c :: rest =>
    c.content.drop (p + 1 - c.start_line) ++ reconstructFrom c.end_line rest

lemma structGo_reconstruct (matcher : String → Option (String × String))
    (lang : String) (maxL ov : Nat) (hov : ov < maxL) :
    ∀ (rest cur : List String) (s idx p : Nat) (st sn : Option String),
      s + cur.length = idx → p < idx → 1 ≤ s → cur.length < maxL →
      reconstructFrom p (structGo matcher lang maxL ov rest cur s idx st sn) =
        cur.drop (p + 1 - s) ++ rest
  | [], cur, s, idx, p, st, sn, hinv, hp, hs, hlen => by
    by_cases hcur : cur.isEmpty
    · have hc : cur = [] := by simpa using hcur
      subst hc
      simp [structGo, reconstructFrom]
    · simp [structGo, hcur, reconstructFrom]
  | l :: rest, cur, s, idx, p, st, sn, hinv, hp, hs, hlen => by
    have hdrop_le : p + 1 - s ≤ cur.length := by omega
    cases hm : matcher l with
    | some tn =>
      by_cases hsize : maxL ≤ ([l] : List String).length
      · -- the fresh boundary chunk is itself emitted at once (maxL = 1)
        have hmax1 : maxL = 1 := by
          simp only [List.length_cons, List.length_nil] at hsize
          omega
        have hov0 : ov = 0 := by omega
        have hidx1 : 1 ≤ idx := by omega
        have hrec := structGo_reconstruct matcher lang maxL ov hov rest
          (([l] : List String).drop (([l] : List String).length - ov))
          (idx + 1 - ov) (idx + 1) idx (some tn.1) (some tn.2)
          (by simp [hov0]) (by omega) (by omega) (by simp [hov0, hmax1])
        by_cases hcur : cur.isEmpty
        · have hc : cur = [] := by simpa using hcur
          subst hc
          have hsidx : s = idx := by simpa using hinv
          simp only [structGo, hm]
          rw [if_pos hsize]
          simp only [List.isEmpty_nil, if_true, List.nil_append,
            reconstructFrom]
          rw [hrec]
          have h1 : p + 1 - idx = 0 := by omega
          simp [h1, hov0]
        · simp only [structGo, hm]
          rw [if_pos hsize, if_neg hcur, List.singleton_append]
          simp only [reconstructFrom]
          rw [hrec]
          have h1 : idx - 1 + 1 - idx = 0 := by omega
          simp [h1, hov0]
      · have hlmax : ([l] : List String).length < maxL := by omega
        by_cases hcur : cur.isEmpty
        · have hc : cur = [] := by simpa using hcur
          subst hc
          have hsidx : s = idx := by simpa using hinv
          have hrec := structGo_reconstruct matcher lang maxL ov hov rest
            [l] idx (idx + 1) p (some tn.1) (some tn.2)
            (by simp) (by omega) (by omega) hlmax
          simp only [structGo, hm]
          rw [if_neg hsize]
          simp only [List.isEmpty_nil, if_true, List.nil_append]
          rw [hrec]
          have h1 : p + 1 - idx = 0 := by omega
          simp [h1]
        · have hidx1 : 1 ≤ idx := by omega
          have hrec := structGo_reconstruct matcher lang maxL ov hov rest
            [l] idx (idx + 1) (idx - 1) (some tn.1) (some tn.2)
            (by simp) (by omega) (by omega) hlmax
          simp only [structGo, hm]
          rw [if_neg hsize, if_neg hcur, List.singleton_append]
          simp only [reconstructFrom]
          rw [hrec]
          have h1 : idx - 1 + 1 - idx = 0 := by omega
          simp [h1]
    | none =>
      by_cases hsize : maxL ≤ (cur ++ [l]).length
      · have hlen1 : (cur ++ [l]).length = maxL := by
          simp only [List.length_append, List.length_cons, List.length_nil]
            at hsize ⊢
          omega
        have hcarlen : ((cur ++ [l]).drop
            ((cur ++ [l]).length - ov)).length = ov := by
          rw [List.length_drop, hlen1]
          omega
        have hidxmax : maxL ≤ idx := by
          simp only [List.length_append, List.length_cons, List.length_nil]
            at hlen1
          omega
        simp only [structGo, hm, hsize, if_true, List.nil_append]
        simp only [reconstructFrom]
        have hrec := structGo_reconstruct matcher lang maxL ov hov rest
          ((cur ++ [l]).drop ((cur ++ [l]).length - ov))
          (idx + 1 - ov) (idx + 1) idx st sn
          (by rw [hcarlen]; omega) (by omega) (by omega)
          (by rw [hcarlen]; omega)
        rw [hrec]
        have h2 : idx + 1 - (idx + 1 - ov) = ov := by omega
        rw [h2]
        have hnil : List.drop ov
            (List.drop ((cur ++ [l]).length - ov) (cur ++ [l])) = [] :=
          List.drop_eq_nil_of_le (by rw [hcarlen])
        rw [hnil, List.drop_append_of_le_length hdrop_le]
        simp
      · simp only [structGo, hm, hsize, if_false, List.nil_append]
        have hrec := structGo_reconstruct matcher lang maxL ov hov rest
          (cur ++ [l]) s (idx + 1) p st sn
          (by simp only [List.length_append, List.length_cons,
                List.length_nil]
              omega)
          (by omega) hs
          (by simp only [List.length_append, List.length_cons,
                List.length_nil] at hsize ⊢
              omega)
        rw [hrec, List.drop_append_of_le_length hdrop_le]
        simp

lemma genericGo_covers (lines : List String) (maxL ov : Nat)
    (hov : ov < maxL) :
    ∀ (fuel : Nat) (idx : Int) (cs : List CodeChunk), 0 ≤ idx →
      genericGo lines maxL ov fuel idx = some cs →
      ∀ i : Nat, idx < (i : Int) → i ≤ lines.length →
        ∃ c ∈ cs, c.start_line ≤ i ∧ i ≤ c.end_line
  | 0, idx, cs, hpos, hgo, i, hi1, hi2 => by
    by_cases hidx : idx < (lines.length : Int)
    · rw [genericGo, if_pos hidx] at hgo
      cases hgo
    · rw [genericGo, if_neg hidx] at hgo
      exfalso
      push_cast at hidx hi1 hi2
      omega
  | fuel + 1, idx, cs, hpos, hgo, i, hi1, hi2 => by
    by_cases hidx : idx < (lines.length : Int)
    · rw [genericGo, if_pos hidx] at hgo
      obtain ⟨cs', hgo', rfl⟩ := Option.map_eq_some'.mp hgo
      have hlenc : (pySlice lines idx (idx + (maxL : Int))).length =
          min (idx + (maxL : Int)).toNat lines.length - idx.toNat := by
        simp only [pySlice, pyIndex, List.length_drop, List.length_take]
        rw [if_neg (by omega : ¬ idx < 0),
          if_neg (by omega : ¬ idx + (maxL : Int) < 0)]
        omega
      by_cases hie : i ≤ min (idx + (pySlice lines idx
          (idx + (maxL : Int))).length).toNat lines.length
      · refine ⟨_, List.mem_cons_self _ _, ?_, hie⟩
        show (idx + 1).toNat ≤ i
        omega
      · have hrec := genericGo_covers lines maxL ov hov fuel
          (idx + (maxL : Int) - (ov : Int)) cs' (by omega) hgo' i
          (by rw [hlenc] at hie; push_cast at hie ⊢; omega) hi2
        obtain ⟨c, hc, hc1, hc2⟩ := hrec
        exact ⟨c, List.mem_cons_of_mem _ hc, hc1, hc2⟩
    · rw [genericGo, if_neg hidx] at hgo
      exfalso
      push_cast at hidx hi1 hi2
      omega

/-- C7: for structured languages (Python and TypeScript/JavaScript),
concatenating chunk contents in emission order and stripping from each
chunk the overlap lines it carries from before the previous chunk's
end reproduces the original line sequence exactly (joined with newlines
in the source, this is the original text byte for byte); for generic
chunking, every line of the file is covered by some emitted chunk, so
the union of the non-overlapped regions, which equals the union of the
chunk regions, covers the file. Requires overlap_lines < max_lines, as
the defaults (10 < 100) satisfy. -/
theorem claim_C7 (maxL ov : Nat) (hov : ov < maxL) (lines : List String) :
    reconstructFrom 0 (chunk_python lines maxL ov) = lines ∧
    reconstructFrom 0 (chunk_typescript lines maxL ov) = lines ∧
    (∀ cs, genericGo lines maxL ov lines.length 0 = some cs →
      ∀ i : Nat, 1 ≤ i → i ≤ lines.length →
        ∃ c ∈ cs, c.start_line ≤ i ∧ i ≤ c.end_line) := by
  refine ⟨?_, ?_, ?_⟩
  · unfold chunk_python
    rw [structGo_reconstruct pyMatch "python" maxL ov hov lines [] 1 1 0
      none none (by simp) (by omega) (by omega)
        (by simp only [List.length_nil]; omega)]
    simp
  · unfold chunk_typescript
    rw [structGo_reconstruct tsMatch "typescript" maxL ov hov lines [] 1 1 0
      none none (by simp) (by omega) (by omega)
        (by simp only [List.length_nil]; omega)]
    simp
  · intro cs hgo i hi1 hi2
    exact genericGo_covers lines maxL ov hov lines.length 0 cs (by omega)
      hgo i (by exact_mod_cast hi1) hi2

/-- Witness for C7 at window 2, overlap 1: a Python snippet with a
declaration boundary and a size split round-trips; a TypeScript export
round-trips; line 3 of a three-line generic file is covered by an
emitted chunk. -/
theorem claim_C7_witness :
    reconstructFrom 0
      (chunk_python ["import os", "", "def f(x):", "  return x", "x = 1"]
        2 1) = ["import os", "", "def f(x):", "  return x", "x = 1"] ∧
    reconstructFrom 0
      (chunk_typescript ["export function g() \x7b", "  return 1", "\x7d"] 2 1) =
      ["export function g() \x7b", "  return 1", "\x7d"] ∧
    ∃ c ∈ chunk_generic ["a", "b", "c"] 2 1,
      c.start_line ≤ 3 ∧ 3 ≤ c.end_line := by
  refine ⟨(claim_C7 2 1 (by omega)
      ["import os", "", "def f(x):", "  return x", "x = 1"]).1,
    (claim_C7 2 1 (by omega)
      ["export function g() \x7b", "  return 1", "\x7d"]).2.1,
    (claim_C7 2 1 (by omega) ["a", "b", "c"]).2.2
      (chunk_generic ["a", "b", "c"] 2 1) rfl 3 (by omega) (by decide)⟩

/-! ## Theorems for claim C8: rate limiter sliding window -/

/-- Membership of a timestamp in the half-open window (t - W, t]. -/
def in_window (W t x : Int) : Bool := decide (t - W < x ∧ x ≤ t)

lemma rl_run_bound (L : Nat) (W : Int) (hL : 1 ≤ L) :
    ∀ (ds : List Nat) (removed deque : List Int) (lastT : Int),
      (∀ x ∈ removed, x + W ≤ lastT) →
      deque.length ≤ L →
      (∀ t : Int, ((removed ++ deque).filter (in_window W t)).length ≤ L) →
      ∀ t : Int,
        (((removed ++ deque) ++ rl_run L W ds deque lastT).filter
          (in_window W t)).length ≤ L
  | [], removed, deque, lastT, hcert, hlen, hwin, t => by
    simpa [rl_run] using hwin t
  | δ :: ds, removed, deque, lastT, hcert, hlen, hwin, t => by
    have hnow : lastT ≤ lastT + (δ : Int) := by omega
    set tw := deque.takeWhile (fun x => x < lastT + (δ : Int) - W) with htw
    set dw := deque.dropWhile (fun x => x < lastT + (δ : Int) - W) with hdw
    have hed : tw ++ dw = deque := List.takeWhile_append_dropWhile _ _
    have hdlen : dw.length ≤ deque.length := by
      have := congrArg List.length hed
      simp only [List.length_append] at this
      omega
    have hcert_e : ∀ x ∈ tw, x + W < lastT + (δ : Int) := by
      intro x hx
      rw [htw] at hx
      have := List.mem_takeWhile_imp hx
      simp only [decide_eq_true_eq] at this
      omega
    have hrun : ∀ α st,
        rl_acquire L W deque (lastT + (δ : Int)) = (α, st) →
        rl_run L W (δ :: ds) deque lastT = α :: rl_run L W ds st α := by
      intro α st hacq
      simp only [rl_run, hacq]
    by_cases hfull : L ≤ dw.length
    · obtain ⟨h, dt, hhd⟩ : ∃ h dt, dw = h :: dt := by
        cases hc : dw with
        | nil => rw [hc] at hfull; simp at hfull; omega
        | cons a l => exact ⟨a, l, rfl⟩
      have hacq : rl_acquire L W deque (lastT + (δ : Int)) =
          (max (lastT + (δ : Int)) (h + W),
           dt ++ [max (lastT + (δ : Int)) (h + W)]) := by
        simp only [rl_acquire, ← hdw]
        rw [if_pos hfull, hhd]
        simp
      rw [hrun _ _ hacq]
      have hsplit : (removed ++ deque) ++
          (max (lastT + (δ : Int)) (h + W) ::
            rl_run L W ds (dt ++ [max (lastT + (δ : Int)) (h + W)])
              (max (lastT + (δ : Int)) (h + W))) =
          ((removed ++ tw ++ [h]) ++
            (dt ++ [max (lastT + (δ : Int)) (h + W)])) ++
            rl_run L W ds (dt ++ [max (lastT + (δ : Int)) (h + W)])
              (max (lastT + (δ : Int)) (h + W)) := by
        rw [← hed, hhd]
        simp
      rw [hsplit]
      apply rl_run_bound L W hL ds (removed ++ tw ++ [h])
        (dt ++ [max (lastT + (δ : Int)) (h + W)])
        (max (lastT + (δ : Int)) (h + W))
      · intro x hx
        simp only [List.mem_append, List.mem_singleton] at hx
        rcases hx with (hx | hx) | hx
        · have h1 := hcert x hx
          have h2 := le_max_left (lastT + (δ : Int)) (h + W)
          omega
        · have h1 := hcert_e x hx
          have h2 := le_max_left (lastT + (δ : Int)) (h + W)
          omega
        · subst hx
          exact le_max_right _ _
      · have hdt : dt.length + 1 = dw.length := by
          rw [hhd]
          simp
        simp only [List.length_append, List.length_cons, List.length_nil]
        omega
      · intro t'
        by_cases hα : in_window W t'
            (max (lastT + (δ : Int)) (h + W)) = true
        · rw [List.filter_append, List.length_append]
          have hnil : (removed ++ tw ++ [h]).filter (in_window W t') = [] := by
            rw [List.filter_eq_nil_iff]
            intro x hx
            simp only [List.mem_append, List.mem_singleton] at hx
            simp only [in_window, decide_eq_true_eq] at hα ⊢
            have hxw : x + W ≤ max (lastT + (δ : Int)) (h + W) := by
              rcases hx with (hx | hx) | hx
              · have h1 := hcert x hx
                have h2 := le_max_left (lastT + (δ : Int)) (h + W)
                omega
              · have h1 := hcert_e x hx
                have h2 := le_max_left (lastT + (δ : Int)) (h + W)
                omega
              · subst hx
                exact le_max_right _ _
            omega
          rw [hnil]
          have hfle := List.length_filter_le (in_window W t')
            (dt ++ [max (lastT + (δ : Int)) (h + W)])
          have hdt : dt.length + 1 = dw.length := by
            rw [hhd]
            simp
          simp only [List.length_append, List.length_cons, List.length_nil]
            at hfle ⊢
          omega
        · have hsame : ((removed ++ tw ++ [h]) ++
              (dt ++ [max (lastT + (δ : Int)) (h + W)])) =
              (removed ++ deque) ++ [max (lastT + (δ : Int)) (h + W)] := by
            conv_rhs => rw [← hed, hhd]
            simp
          rw [hsame, List.filter_append, List.length_append]
          have hz : ([max (lastT + (δ : Int)) (h + W)].filter
              (in_window W t')).length = 0 := by
            simp [hα]
          rw [hz]
          simpa using hwin t'
    · have hacq : rl_acquire L W deque (lastT + (δ : Int)) =
          (lastT + (δ : Int), dw ++ [lastT + (δ : Int)]) := by
        simp only [rl_acquire, ← hdw]
        rw [if_neg hfull]
      rw [hrun _ _ hacq]
      have hsplit : (removed ++ deque) ++
          ((lastT + (δ : Int)) ::
            rl_run L W ds (dw ++ [lastT + (δ : Int)]) (lastT + (δ : Int))) =
          ((removed ++ tw) ++ (dw ++ [lastT + (δ : Int)])) ++
            rl_run L W ds (dw ++ [lastT + (δ : Int)]) (lastT + (δ : Int)) := by
        rw [← hed]
        simp
      rw [hsplit]
      apply rl_run_bound L W hL ds (removed ++ tw)
        (dw ++ [lastT + (δ : Int)]) (lastT + (δ : Int))
      · intro x hx
        simp only [List.mem_append] at hx
        rcases hx with hx | hx
        · have := hcert x hx
          omega
        · have := hcert_e x hx
          omega
      · simp only [List.length_append, List.length_cons, List.length_nil]
        omega
      · intro t'
        by_cases hα : in_window W t' (lastT + (δ : Int)) = true
        · rw [List.filter_append, List.length_append]
          have hnil : (removed ++ tw).filter (in_window W t') = [] := by
            rw [List.filter_eq_nil_iff]
            intro x hx
            simp only [List.mem_append] at hx
            simp only [in_window, decide_eq_true_eq] at hα ⊢
            have hxw : x + W ≤ lastT + (δ : Int) := by
              rcases hx with hx | hx
              · have := hcert x hx
                omega
              · have := hcert_e x hx
                omega
            omega
          rw [hnil]
          have hfle := List.length_filter_le (in_window W t')
            (dw ++ [lastT + (δ : Int)])
          simp only [List.length_append, List.length_cons, List.length_nil]
            at hfle ⊢
          omega
        · have hsame : ((removed ++ tw) ++ (dw ++ [lastT + (δ : Int)])) =
              (removed ++ deque) ++ [lastT + (δ : Int)] := by
            conv_rhs => rw [← hed]
            simp
          rw [hsame, List.filter_append, List.length_append]
          have hz : ([lastT + (δ : Int)].filter (in_window W t')).length
              = 0 := by
            simp [hα]
          rw [hz]
          simpa using hwin t'

/-- C8: over any rolling window of `time_window` seconds, the number of
admitted calls never exceeds `rate_limit` (the window is taken half
open, (t - W, t], as an admission lying exactly on a boundary belongs
to one window only); and when the window is full after expiry, the
waiter sleeps until the oldest retained timestamp plus the window —
admitting at `max(now, oldest + W)`. The run model serialises the
acquisitions under the asyncio lock: each call reads the monotone clock
some nonnegative delay after the previous admission was recorded. -/
theorem claim_C8 (L : Nat) (W : Int) (hL : 1 ≤ L) (t0 : Int)
    (ds : List Nat) :
    (∀ t : Int,
      ((rl_run L W ds [] t0).filter (in_window W t)).length ≤ L) ∧
    (∀ (deque : List Int) (now : Int),
      L ≤ (deque.dropWhile (fun x => x < now - W)).length →
      (rl_acquire L W deque now).1 =
        max now ((deque.dropWhile (fun x => x < now - W)).headD 0 + W)) := by
  constructor
  · intro t
    have h := rl_run_bound L W hL ds [] [] t0 (by simp) (by simp)
      (by simp) t
    simpa using h
  · intro deque now h
    simp only [rl_acquire]
    rw [if_pos h]

/-- Witness for C8: limit 2 per 10 seconds, three back-to-back calls at
time 0; at most two admissions fall in the window (-5, 5], and a full
deque admits at the oldest timestamp plus the window. -/
theorem claim_C8_witness :
    ((rl_run 2 10 [0, 0, 0] [] 0).filter (in_window 10 5)).length ≤ 2 ∧
    (rl_acquire 2 10 [0, 0] 0).1 =
      max 0 ((([0, 0] : List Int).dropWhile (fun x => x < 0 - 10)).headD 0
        + 10) :=
  ⟨(claim_C8 2 10 (by omega) 0 [0, 0, 0]).1 5,
   (claim_C8 2 10 (by omega) 0 [0, 0, 0]).2 [0, 0] 0 (by decide)⟩
